import Mathlib

/-!
# Verification of the AI-Suggested Path Resolution Engine

A shallow embedding of the path-resolution core of the `file-organizer-gui`
repository (`ai_organizer.py`, `ai_backends.py`, `ai_file_organizer.py`),
together with theorems settling the specification claims about it.

Python strings are modelled as `String`/`List Char`; the string primitives
(`strip`, `split`, `splitlines`, `lower`, ...) are reimplemented below with
Python's semantics on the ASCII range (all string literals appearing in the
program and in the claims are ASCII).  Code that can raise at runtime is
modelled with `Option` (`none` = an uncaught exception).  The regular
expressions used by the source are small and fixed, so each one is embedded
as an explicit scanner with the leftmost / greedy / lazy behaviour of
Python's `re` for that concrete pattern.
-/

namespace Organizer

/-! ## Python string primitives -/

/-- ASCII whitespace, as recognised by Python's `str.strip()` / `str.split()`
and the regex class `\s`: space, tab, newline, carriage return, vertical
tab, form feed. -/
def pyWs (c : Char) : Bool :=
  c == ' ' || c == '\t' || c == '\n' || c == '\r' ||
  c == Char.ofNat 11 || c == Char.ofNat 12

/-- ASCII lower-casing, as `str.lower()` acts on the ASCII range. -/
def pyLowerChar (c : Char) : Char := c.toLower

def pyLowerL (l : List Char) : List Char := l.map pyLowerChar

def pyLower (s : String) : String := (pyLowerL s.toList).asString

/-- Strip characters satisfying `p` from both ends (Python `str.strip`). -/
def stripBy (p : Char → Bool) (l : List Char) : List Char :=
  ((l.dropWhile p).reverse.dropWhile p).reverse

/-- Python `str.strip()` (no argument: whitespace). -/
def pyStripL (l : List Char) : List Char := stripBy pyWs l

def pyStrip (s : String) : String := (pyStripL s.toList).asString

/-- Python `str.strip(cs)` for an explicit character set. -/
def stripCharsL (cs : List Char) (l : List Char) : List Char :=
  stripBy (fun c => cs.contains c) l

/-- Split on a single separator character (Python `str.split(sep)`:
keeps empty pieces). -/
def splitCh (sep : Char) : List Char → List (List Char)
  | [] => [[]]
  | c :: rest =>
    if c = sep then [] :: splitCh sep rest
    else
      match splitCh sep rest with
      | [] => [[c]]
      | s :: ss => (c :: s) :: ss

/-- Join with `'/'` (Python `"/".join`). -/
def joinSlash : List (List Char) → List Char
  | [] => []
  | [s] => s
  | s :: rest => s ++ '/' :: joinSlash rest

/-- `[p for p in l.split("/") if p]`: split on `'/'` and keep the nonempty
pieces. -/
def partsNS (l : List Char) : List (List Char) :=
  (splitCh '/' l).filter (· ≠ [])

/-- Python `str.split()` with no argument: split on whitespace runs,
dropping empty pieces. -/
def wordsL : List Char → List (List Char)
  | [] => []
  | c :: rest =>
    if pyWs c then wordsL rest
    else
      match wordsL rest with
      | [] => [[c]]
      | w :: ws =>
        match rest with
        | [] => [[c]]
        | d :: _ => if pyWs d then [c] :: w :: ws else (c :: w) :: ws

/-- A line-boundary character of `str.splitlines()` (the ASCII ones:
`\n`, `\r`, vertical tab, form feed; the program never produces the
remaining exotic boundary characters). -/
def isLineBrk (c : Char) : Bool :=
  c == '\n' || c == '\r' || c == Char.ofNat 11 || c == Char.ofNat 12

/-- Collapse each `\r\n` pair to `\n`, so that the split below can treat every
boundary as a single character (`\r` and `\n` are both boundaries, so no
line content is affected). -/
def normCRLF : List Char → List Char
  | [] => []
  | '\r' :: '\n' :: r => '\n' :: normCRLF r
  | c :: r => c :: normCRLF r

/-- Python `str.splitlines()` worker on CRLF-normalised text. -/
def splitLinesGo (acc : List Char) : List Char → List (List Char)
  | [] => [acc.reverse]
  | c :: r =>
    if isLineBrk c then
      acc.reverse :: (if r.isEmpty then [] else splitLinesGo [] r)
    else splitLinesGo (c :: acc) r

/-- Python `str.splitlines()`. -/
def splitLinesL (l : List Char) : List (List Char) :=
  if l.isEmpty then [] else splitLinesGo [] (normCRLF l)

/-- Python `str.replace("\\", "/")`: a single-character replacement is a map. -/
def replaceBsL (l : List Char) : List Char :=
  l.map (fun c => if c = '\\' then '/' else c)

/-- Case-insensitive prefix test (both sides ASCII-lowered, as
`re.IGNORECASE` does on the patterns at hand). -/
def prefixCI : List Char → List Char → Bool
  | [], _ => true
  | _ :: _, [] => false
  | p :: ps, c :: cs => pyLowerChar p == pyLowerChar c && prefixCI ps cs

/-- Does `pat` occur case-insensitively anywhere in `l`? -/
def occursCI (pat : List Char) : List Char → Bool
  | [] => prefixCI pat []
  | c :: rest => prefixCI pat (c :: rest) || occursCI pat rest

/-- Exact (case-sensitive) prefix test on char lists. -/
def prefixEq : List Char → List Char → Bool
  | [], _ => true
  | _ :: _, [] => false
  | p :: ps, c :: cs => p == c && prefixEq ps cs

/-- Split at the first exact occurrence of `pat`, returning the part before
and the part after the occurrence. -/
def splitOnceSub (pat : List Char) : List Char → Option (List Char × List Char)
  | [] => if pat.isEmpty then some ([], []) else none
  | c :: rest =>
    if prefixEq pat (c :: rest) then some ([], (c :: rest).drop pat.length)
    else
      match splitOnceSub pat rest with
      | some (a, b) => some (c :: a, b)
      | none => none

/-- Split at the first case-insensitive occurrence of `pat`. -/
def splitOnceSubCI (pat : List Char) : List Char → Option (List Char × List Char)
  | [] => if pat.isEmpty then some ([], []) else none
  | c :: rest =>
    if prefixCI pat (c :: rest) then some ([], (c :: rest).drop pat.length)
    else
      match splitOnceSubCI pat rest with
      | some (a, b) => some (c :: a, b)
      | none => none

/-- Word character for `\b` boundaries: `[A-Za-z0-9_]`. -/
def isWordChar (c : Char) : Bool :=
  ('a' ≤ c && c ≤ 'z') || ('A' ≤ c && c ≤ 'Z') || ('0' ≤ c && c ≤ '9') || c == '_'

/-! ## The regex scanners of the two parsers

Each scanner embeds one concrete pattern of the source with Python `re`
semantics for that pattern (leftmost match, documented greediness). -/

/-- `re.sub(r"```.*?```", "", text, flags=re.DOTALL)`: repeatedly delete the
span from a fence opener to the nearest closer (lazy `.*?`); with no closer
after the first opener no later opener can have one either, so the text is
returned unchanged. -/
def fenceSubGo : Nat → List Char → List Char
  | 0, l => l
  | fuel + 1, l =>
    match splitOnceSub "```".toList l with
    | none => l
    | some (pre, post) =>
      match splitOnceSub "```".toList post with
      | none => l
      | some (_, post2) => pre ++ fenceSubGo fuel post2

def fenceSubL (l : List Char) : List Char := fenceSubGo (l.length + 1) l

/-- `re.sub(r"<think>.*?</think>", "", text, flags=re.DOTALL | re.IGNORECASE)`. -/
def thinkSubGo : Nat → List Char → List Char
  | 0, l => l
  | fuel + 1, l =>
    match splitOnceSubCI "<think>".toList l with
    | none => l
    | some (pre, post) =>
      match splitOnceSubCI "</think>".toList post with
      | none => l
      | some (_, post2) => pre ++ thinkSubGo fuel post2

def thinkSubL (l : List Char) : List Char := thinkSubGo (l.length + 1) l

/-- `re.sub(r"<.*?>", "", response, flags=re.DOTALL)`: delete from each `<`
to the nearest following `>`. -/
def tagSubGo : Nat → List Char → List Char
  | 0, l => l
  | fuel + 1, l =>
    match splitOnceSub ['<'] l with
    | none => l
    | some (pre, post) =>
      match splitOnceSub ['>'] post with
      | none => l
      | some (_, post2) => pre ++ tagSubGo fuel post2

def tagSubL (l : List Char) : List Char := tagSubGo (l.length + 1) l

/-- `re.sub(r"^#+\s.*$", "", text, flags=re.MULTILINE)`: at a line start, a
run of `#` followed by one whitespace character (possibly the newline
itself) and then the rest of the current line is deleted.  The flag
argument is whether the scanner sits at a line start (string start or just
after `'\n'`). -/
def headingSubGo : Nat → Bool → List Char → List Char
  | 0, _, l => l
  | _ + 1, _, [] => []
  | fuel + 1, atStart, c :: rest =>
    if atStart ∧ c = '#' then
      let afterHash := (c :: rest).dropWhile (· = '#')
      match afterHash with
      | [] => c :: headingSubGo fuel false rest
      | d :: rest2 =>
        if pyWs d then headingSubGo fuel false (rest2.dropWhile (· ≠ '\n'))
        else c :: headingSubGo fuel false rest
    else c :: headingSubGo fuel (c = '\n') rest

def headingSubL (l : List Char) : List Char := headingSubGo (l.length + 1) true l

/-- Trailing `\b` check for a prose alternative `alt` against the text that
follows the matched phrase. -/
def proseTrailOk (alt : List Char) (after : List Char) : Bool :=
  match alt.getLast? with
  | none => true
  | some lastc =>
    if isWordChar lastc then
      match after.head? with
      | none => true
      | some d => !isWordChar d
    else
      match after.head? with
      | none => false
      | some d => isWordChar d

/-- `re.sub(r"\b(alt1|alt2|...)\b.*", "", text, flags=re.IGNORECASE)`:
at each position with a word boundary before it, the first alternative
that matches (with its trailing boundary) is deleted together with the
rest of the line (`.*` stops before `'\n'`).  `prevWord` tracks whether
the preceding character is a word character. -/
def proseSubGo (alts : List (List Char)) : Nat → Bool → List Char → List Char
  | 0, _, l => l
  | _ + 1, _, [] => []
  | fuel + 1, prevWord, c :: rest =>
    match if prevWord then none
          else alts.find? (fun alt =>
            prefixCI alt (c :: rest) && proseTrailOk alt ((c :: rest).drop alt.length)) with
    | some alt =>
      let afterAlt := (c :: rest).drop alt.length
      let afterLine := afterAlt.dropWhile (· ≠ '\n')
      let span := alt ++ afterAlt.takeWhile (· ≠ '\n')
      proseSubGo alts fuel (match span.getLast? with
                           | some e => isWordChar e
                           | none => prevWord) afterLine
    | none => c :: proseSubGo alts fuel (isWordChar c) rest

def proseSubL (alts : List String) (l : List Char) : List Char :=
  proseSubGo (alts.map String.toList) (l.length + 1) false l

/-- Scanner for `re.search(r'{\s*"path"\s*:\s*"([^"]+)"}', text, re.IGNORECASE)`:
attempt a match at the head of `l`, returning the captured group. -/
def jsonAt (l : List Char) : Option (List Char) :=
  match l with
  | '{' :: r1 =>
    let r2 := r1.dropWhile pyWs
    match r2 with
    | '"' :: r3 =>
      if prefixCI "path".toList r3 then
        match r3.drop 4 with
        | '"' :: r4 =>
          let r5 := r4.dropWhile pyWs
          match r5 with
          | ':' :: r6 =>
            let r7 := r6.dropWhile pyWs
            match r7 with
            | '"' :: r8 =>
              let grp := r8.takeWhile (· ≠ '"')
              if grp.isEmpty then none
              else
                match r8.drop grp.length with
                | '"' :: '}' :: _ => some grp
                | _ => none
            | _ => none
          | _ => none
        | _ => none
      else none
    | _ => none
  | _ => none

/-- Leftmost match of the JSON `path` pattern. -/
def jsonSearchL : List Char → Option (List Char)
  | [] => none
  | c :: rest =>
    match jsonAt (c :: rest) with
    | some g => some g
    | none => jsonSearchL rest

/-! ## The path-candidate grammar `[A-Za-z0-9 _.-]+(?:/[A-Za-z0-9 _.-]+){0,2}` -/

/-- The character class of the path grammar. -/
def isPathChar (c : Char) : Bool :=
  ('a' ≤ c && c ≤ 'z') || ('A' ≤ c && c ≤ 'Z') || ('0' ≤ c && c ≤ '9') ||
  c == ' ' || c == '_' || c == '.' || c == '-'

theorem length_dropWhile_le' {α : Type} (p : α → Bool) (l : List α) :
    (l.dropWhile p).length ≤ l.length := by
  induction l with
  | nil => simp
  | cons c rest ih =>
    rw [List.dropWhile_cons]
    split
    · exact Nat.le_succ_of_le ih
    · simp

/-- Greedy match of up to `n` further `/segment` groups of the candidate
pattern, starting from an already-matched part `acc` and remaining text
`r`; a group is taken only when the `'/'` is followed by at least one path
character (otherwise the regex backtracks to fewer groups). -/
def munchGroups : Nat → List Char → List Char → List Char × List Char
  | 0, acc, r => (acc, r)
  | n + 1, acc, r =>
    match r with
    | [] => (acc, r)
    | c :: r2 =>
      if c = '/' ∧ ¬(r2.takeWhile isPathChar).isEmpty then
        munchGroups n (acc ++ '/' :: r2.takeWhile isPathChar) (r2.dropWhile isPathChar)
      else (acc, r)

/-- Greedy match of the full candidate pattern
`[A-Za-z0-9 _.-]+(?:/[A-Za-z0-9 _.-]+){0,2}` starting at `l` (assumed to
start with a path character).  Returns the match and the remaining text. -/
def munchCand (l : List Char) : List Char × List Char :=
  munchGroups 2 (l.takeWhile isPathChar) (l.dropWhile isPathChar)

theorem length_munchGroups_snd_le (n : Nat) (acc r : List Char) :
    (munchGroups n acc r).2.length ≤ r.length := by
  induction n generalizing acc r with
  | zero => simp [munchGroups]
  | succ n ih =>
    unfold munchGroups
    match r with
    | [] => simp
    | c :: r2 =>
      simp only
      split
      · calc (munchGroups n _ (r2.dropWhile isPathChar)).2.length
            ≤ (r2.dropWhile isPathChar).length := ih _ _
          _ ≤ r2.length := length_dropWhile_le' _ _
          _ ≤ (c :: r2).length := by simp
      · simp

theorem length_munchCand_snd_le (l : List Char) : (munchCand l).2.length ≤ l.length :=
  calc (munchCand l).2.length ≤ (l.dropWhile isPathChar).length :=
        length_munchGroups_snd_le 2 _ _
    _ ≤ l.length := length_dropWhile_le' _ _

theorem length_munchCand_snd_lt {c : Char} (rest : List Char) (h : isPathChar c) :
    (munchCand (c :: rest)).2.length < (c :: rest).length := by
  have h1 : (munchCand (c :: rest)).2.length ≤ ((c :: rest).dropWhile isPathChar).length :=
    length_munchGroups_snd_le 2 _ _
  have h2 : (c :: rest).dropWhile isPathChar = rest.dropWhile isPathChar := by
    simp [List.dropWhile_cons, h]
  rw [h2] at h1
  have h3 := length_dropWhile_le' isPathChar rest
  simp only [List.length_cons]
  omega

/-- `re.findall` worker for the path-candidate grammar: scan left to
right, take each greedy match, continue after it.  The fuel is structural
only; `length_munchCand_snd_lt` shows each step consumes at least one
character, so `l.length + 1` fuel always suffices. -/
def findall1Go : Nat → List Char → List (List Char)
  | 0, _ => []
  | _ + 1, [] => []
  | fuel + 1, c :: rest =>
    if isPathChar c then
      (munchCand (c :: rest)).1 :: findall1Go fuel (munchCand (c :: rest)).2
    else findall1Go fuel rest

/-- `re.findall` for the path-candidate grammar. -/
def findall1 (l : List Char) : List (List Char) := findall1Go (l.length + 1) l

/-- Alphabetic ASCII character. -/
def isAlphaChar (c : Char) : Bool :=
  ('a' ≤ c && c ≤ 'z') || ('A' ≤ c && c ≤ 'Z')

/-- The character class `[A-Za-z0-9_-]` of the second candidate pattern. -/
def isIdentChar (c : Char) : Bool :=
  isAlphaChar c || ('0' ≤ c && c ≤ '9') || c == '_' || c == '-'

/-- Greedy match of up to `n` further `/[A-Za-z][A-Za-z0-9_-]*` groups. -/
def munchGroups2 : Nat → List Char → List Char → List Char × List Char
  | 0, acc, r => (acc, r)
  | n + 1, acc, r =>
    match r with
    | c :: d :: r2 =>
      if c = '/' ∧ isAlphaChar d then
        munchGroups2 n (acc ++ '/' :: d :: r2.takeWhile isIdentChar)
          (r2.dropWhile isIdentChar)
      else (acc, r)
    | _ => (acc, r)

/-- Greedy match of the second candidate pattern
`[A-Za-z][A-Za-z0-9_-]*(?:/[A-Za-z][A-Za-z0-9_-]*){0,2}` starting at the
alphabetic character `c`. -/
def munchCand2 (c : Char) (rest : List Char) : List Char × List Char :=
  munchGroups2 2 (c :: rest.takeWhile isIdentChar) (rest.dropWhile isIdentChar)

theorem length_munchGroups2_snd_le (n : Nat) (acc r : List Char) :
    (munchGroups2 n acc r).2.length ≤ r.length := by
  induction n generalizing acc r with
  | zero => simp [munchGroups2]
  | succ n ih =>
    unfold munchGroups2
    match r with
    | [] => simp
    | [c] => simp
    | c :: d :: r2 =>
      simp only
      split
      · calc (munchGroups2 n _ (r2.dropWhile isIdentChar)).2.length
            ≤ (r2.dropWhile isIdentChar).length := ih _ _
          _ ≤ r2.length := length_dropWhile_le' _ _
          _ ≤ (c :: d :: r2).length := by simp; omega
      · simp

theorem length_munchCand2_snd_lt (c : Char) (rest : List Char) :
    (munchCand2 c rest).2.length < (c :: rest).length := by
  have h1 : (munchCand2 c rest).2.length ≤ (rest.dropWhile isIdentChar).length :=
    length_munchGroups2_snd_le 2 _ _
  have h3 := length_dropWhile_le' isIdentChar rest
  simp only [List.length_cons]
  omega

/-- `re.findall` worker for the second pattern (fuelled as `findall1Go`;
`length_munchCand2_snd_lt` justifies the fuel bound). -/
def findall2Go : Nat → List Char → List (List Char)
  | 0, _ => []
  | _ + 1, [] => []
  | fuel + 1, c :: rest =>
    if isAlphaChar c then
      (munchCand2 c rest).1 :: findall2Go fuel (munchCand2 c rest).2
    else findall2Go fuel rest

/-- `re.findall` for the second pattern. -/
def findall2 (l : List Char) : List (List Char) := findall2Go (l.length + 1) l

/-! ## Whitespace / slash-run collapsing -/

/-- `re.sub(r"\s{2,}", " ", s)`: each run of two or more whitespace
characters becomes a single space; a lone whitespace character is kept
as it is. -/
def collapseWsGo : Nat → List Char → List Char
  | 0, l => l
  | _ + 1, [] => []
  | _ + 1, [c] => [c]
  | fuel + 1, c :: d :: rest =>
    if pyWs c ∧ pyWs d then ' ' :: collapseWsGo fuel (rest.dropWhile pyWs)
    else c :: collapseWsGo fuel (d :: rest)

def collapseWsL (l : List Char) : List Char := collapseWsGo (l.length + 1) l

/-- `re.sub(r"/{2,}", "/", s)`. -/
def collapseSlashGo : Nat → List Char → List Char
  | 0, l => l
  | _ + 1, [] => []
  | _ + 1, [c] => [c]
  | fuel + 1, c :: d :: rest =>
    if c = '/' ∧ d = '/' then '/' :: collapseSlashGo fuel (rest.dropWhile (· = '/'))
    else c :: collapseSlashGo fuel (d :: rest)

def collapseSlashL (l : List Char) : List Char := collapseSlashGo (l.length + 1) l

/-! ## The organizer parser: `OrganizerApp._extract_path_from_text` -/

/-- Does `re.search(r"\b(is|are|the|this|that|here|would)\b", s, re.IGNORECASE)`
match?  `prevWord` tracks whether the previous character is a word
character (for the leading `\b`; all alternatives start and end with word
characters). -/
def hasStopwordGo (ws : List (List Char)) : Bool → List Char → Bool
  | _, [] => false
  | prevWord, c :: rest =>
    (!prevWord && ws.any (fun w =>
        prefixCI w (c :: rest) &&
          match (c :: rest).drop w.length with
          | [] => true
          | d :: _ => !isWordChar d)) ||
    hasStopwordGo ws (isWordChar c) rest

def stopwords : List (List Char) :=
  ["is", "are", "the", "this", "that", "here", "would"].map String.toList

def hasStopword (l : List Char) : Bool := hasStopwordGo stopwords false l

/-- The candidate score of `OrganizerApp._extract_path_from_text.score`. -/
def scoreOrg (c : List Char) : Int :=
  let cs := stripCharsL "./ ".toList (pyStripL c)
  let p1 : Int := if hasStopword cs then 2 else 0
  let p2 : Int := if (wordsL cs).length > 6 then 3 else 0
  let segs := (splitCh '/' cs).filter (· ≠ [])
  let total : Nat := segs.foldl (fun a s => a + s.length) 0
  let base : Int := 10 - ((min 9 total : Nat) : Int)
  base - (p1 + p2)

/-- The prose-lead-in alternatives of the organizer parser (one pattern). -/
def proseAlts1 : List String :=
  ["the cleaned compact path would be", "the path would be",
   "the best path is", "final path:"]

/-- Selection and post-processing of the best candidate (`max` with the
first maximum winning, outer strip of `"./ "`, whitespace and slash
collapsing, per-segment strip, filter and 3-segment cap). -/
def pickBestCand (cands : List (List Char)) : List Char :=
  match cands with
  | [] => []
  | c :: cs =>
    let best := cs.foldl (fun b x => if scoreOrg x > scoreOrg b then x else b) c
    let best := stripCharsL "./ ".toList (pyStripL best)
    let best := collapseWsL best
    let best := collapseSlashL best
    let parts := ((splitCh '/' best).map pyStripL).filter (· ≠ [])
    joinSlash (parts.take 3)

/-- `OrganizerApp._extract_path_from_text` (ai_organizer.py): JSON
extraction, fence / think-tag / heading / prose removal, candidate
collection with the word-count filter, then `pickBestCand`. -/
def extractTextL (text : List Char) : List Char :=
  if text.isEmpty then []
  else
    match jsonSearchL text with
    | some g => pyStripL g
    | none =>
      let t := fenceSubL text
      let t := thinkSubL t
      let t := headingSubL t
      let t := proseSubL proseAlts1 t
      pickBestCand
        (((findall1 t).filter
          (fun c => c.contains '/' || (wordsL c).length ≤ 4)).map pyStripL)

/-- `_extract_path_from_text` on `String`. -/
def extract_path_from_text (text : String) : String :=
  (extractTextL text.toList).asString

/-! ## The organizer sanitizer: `OrganizerApp._sanitize_path` -/

/-- The characters deleted as invalid in file names: `<>:"|?*`. -/
def isInvalidChar (c : Char) : Bool :=
  c == '<' || c == '>' || c == ':' || c == '"' || c == '|' || c == '?' || c == '*'

/-- The post-`splitlines` processing of `_sanitize_path` on the first
line: `lstrip("/")`, strip, deletion of invalid characters, the
`"Uncategorized"` fallback for an empty result, then split / filter /
3-segment cap / rejoin. -/
def sanitizeTail (line : List Char) : List Char :=
  let c2 := pyStripL (line.dropWhile (· = '/'))
  let c3 := c2.filter (fun c => !isInvalidChar c)
  let c4 := if c3.isEmpty then "Uncategorized".toList else c3
  joinSlash ((partsNS c4).take 3)

/-- `OrganizerApp._sanitize_path` (ai_organizer.py).  The source computes
`candidate.strip().replace("\\", "/").splitlines()[0]`; when the stripped
candidate is empty, `splitlines()` is `[]` and the `[0]` index raises
`IndexError` — modelled as `none`. -/
def sanitizeL (text : List Char) : Option (List Char) :=
  let ex := extractTextL text
  let candidate := if ex.isEmpty then text else ex
  match splitLinesL (replaceBsL (pyStripL candidate)) with
  | [] => none
  | line :: _ => some (sanitizeTail line)

/-- `_sanitize_path` on `String`; `none` models the uncaught `IndexError`. -/
def sanitize_path (text : String) : Option String :=
  (sanitizeL text.toList).map List.asString

/-! ## The backends sanitizer: `validate_folder_path` (ai_backends.py) -/

/-- The oracle error markers rejected up front (note: four entries; the
word `unknown` is not among them). -/
def errorMarkers : List (List Char) :=
  ["error", "none", "null", "undefined"].map String.toList

/-- Strip the unwanted lead-in phrases, sequentially and at most once each
(the loop checks each of the five phrases in order against the current
value). -/
def dropLeadPhrases (phrases : List (List Char)) (l : List Char) : List Char :=
  phrases.foldl
    (fun p phrase => if prefixCI phrase p then pyStripL (p.drop phrase.length) else p) l

def leadPhrases : List (List Char) :=
  ["the path is", "the folder is", "suggested path:", "folder path:", "path:"].map
    String.toList

/-- `validate_folder_path` (ai_backends.py). -/
def validateL (path : List Char) : List Char :=
  if path.isEmpty || errorMarkers.contains (pyLowerL path) then
    "Uncategorized".toList
  else
    let p := stripCharsL "\"'`".toList (pyStripL path)
    let p := replaceBsL p
    let p := stripCharsL ['/'] p
    let p := p.filter (fun c => !isInvalidChar c)
    let p := dropLeadPhrases leadPhrases p
    let p := if p.length > 100 then
               let parts := splitCh '/' p
               if parts.length > 1 then joinSlash (parts.take 3) else p.take 100
             else p
    if p.isEmpty || p.all pyWs then "Uncategorized".toList else p

def validate_folder_path (path : String) : String := (validateL path.toList).asString

/-! ## The backends parser: `extract_path_from_response` (ai_backends.py) -/

/-- The words checked by substring containment in `_score_path_candidate`. -/
def proseWords : List (List Char) :=
  ["is", "are", "the", "this", "that", "here", "would", "should", "could"].map
    String.toList

/-- Is `pat` a (case-sensitive) substring of `l`? -/
def isSubstr (pat : List Char) : List Char → Bool
  | [] => pat.isEmpty
  | c :: rest => prefixEq pat (c :: rest) || isSubstr pat rest

/-- `re.match(r'^[A-Za-z][A-Za-z0-9_-]*(?:/[A-Za-z][A-Za-z0-9_-]*)*$', c)`. -/
def structuredOk (c : List Char) : Bool :=
  !c.isEmpty &&
    (splitCh '/' c).all (fun s =>
      match s with
      | [] => false
      | d :: ds => isAlphaChar d && ds.all isIdentChar)

/-- `_score_path_candidate` (ai_backends.py). -/
def score_path_candidate (c : List Char) : Int :=
  let s1 : Int := if c.contains '/' then 10 else 0
  let s2 : Int := max 0 (20 - (c.length : Int))
  let w := (wordsL c).length
  let s3 : Int := if w > 6 then ((w : Int) - 6) * 2 else 0
  let s4 : Int := 2 * ((proseWords.filter (fun word => isSubstr word (pyLowerL c))).length : Int)
  let s5 : Int := if structuredOk c then 5 else 0
  s1 + s2 - s3 - s4 + s5

/-- The best-scoring candidate: a fold with `score > best_score` starting
from `best_score = -1`, `best_match = None` (so the first maximum wins and
`none` results when every score is `≤ -1`). -/
def bestCandidate (ms : List (List Char)) : Option (List Char) :=
  (ms.foldl
    (fun (acc : Int × Option (List Char)) m =>
      if score_path_candidate m > acc.1 then (score_path_candidate m, some m) else acc)
    (-1, none)).2

/-- The final line-scan fallback of `extract_path_from_response`. -/
def linesFallback : List (List Char) → List Char
  | [] => "Uncategorized".toList
  | ln :: rest =>
    let l := pyStripL ln
    if l.contains '/' && l.length < 50 then
      let cl := validateL l
      if cl = "Uncategorized".toList then linesFallback rest else cl
    else linesFallback rest

def proseAlts2 : List String :=
  ["this file should go in", "this belongs in", "organize this as"]

def proseAlts3 : List String :=
  ["suggested organization", "recommended location"]

/-- `extract_path_from_response` (ai_backends.py). -/
def extractResponseL (response : List Char) : List Char :=
  if response.isEmpty then "Uncategorized".toList
  else
    match jsonSearchL response with
    | some g => validateL g
    | none =>
      let r := fenceSubL response
      let r := tagSubL r
      let r := headingSubL r
      let r := proseSubL proseAlts1 r
      let r := proseSubL proseAlts2 r
      let r := proseSubL proseAlts3 r
      match bestCandidate (findall1 r) with
      | some b => validateL b
      | none =>
        match bestCandidate (findall2 r) with
        | some b => validateL b
        | none => linesFallback (splitCh '\n' r)

def extract_path_from_response (response : String) : String :=
  (extractResponseL response.toList).asString

/-! ## difflib: `SequenceMatcher.ratio` and `get_close_matches`

The directory names compared here are far below the 200-character
autojunk threshold and contain no junk, so `SequenceMatcher` reduces to
`find_longest_match` / `get_matching_blocks` without junk handling, and
the `real_quick_ratio`/`quick_ratio` pre-tests of `get_close_matches` are
upper bounds of `ratio` and therefore redundant for the cutoff test. -/

/-- The ascending list of positions of `c` in `b` (difflib's `b2j`). -/
def b2j (b : List Char) (c : Char) : List Nat :=
  (List.range b.length).filter (fun j => b.getD j ' ' == c)

/-- State of `find_longest_match`: the `j2len` map from the previous row
and the current best `(i, j, size)`. -/
structure FlmSt where
  j2len : List (Nat × Nat)
  besti : Nat
  bestj : Nat
  bestk : Nat

/-- One row of `find_longest_match` (one value of `i`); `js` is the
(ascending, `[blo, bhi)`-filtered) position list of `a[i]` in `b`. -/
def flmRow (i : Nat) (js : List Nat) (st : FlmSt) : FlmSt :=
  let r := js.foldl
    (fun (s : List (Nat × Nat) × Nat × Nat × Nat) j =>
      let k := if j = 0 then 1 else ((st.j2len.lookup (j - 1)).getD 0) + 1
      let nl := (j, k) :: s.1
      if k > s.2.2.2 then (nl, i + 1 - k, j + 1 - k, k) else (nl, s.2))
    ([], st.besti, st.bestj, st.bestk)
  ⟨r.1, r.2.1, r.2.2.1, r.2.2.2⟩

/-- `SequenceMatcher.find_longest_match(alo, ahi, blo, bhi)` (no junk). -/
def flm (a b : List Char) (alo ahi blo bhi : Nat) : Nat × Nat × Nat :=
  let final := (List.range' alo (ahi - alo)).foldl
    (fun (st : FlmSt) i =>
      let js := (b2j b (a.getD i ' ')).filter (fun j => blo ≤ j && j < bhi)
      flmRow i js st)
    ⟨[], alo, blo, 0⟩
  (final.besti, final.bestj, final.bestk)

/-- Total size of all matching blocks (`get_matching_blocks` recursion);
the fuel dominates the recursion depth, which is bounded by the interval
length. -/
def matchSumGo (a b : List Char) : Nat → Nat × Nat × Nat × Nat → Nat
  | 0, _ => 0
  | fuel + 1, (alo, ahi, blo, bhi) =>
    let r := flm a b alo ahi blo bhi
    let i := r.1
    let j := r.2.1
    let k := r.2.2
    if k = 0 then 0
    else matchSumGo a b fuel (alo, i, blo, j) + k +
         matchSumGo a b fuel (i + k, ahi, j + k, bhi)

def matchSum (a b : List Char) : Nat :=
  matchSumGo a b (a.length + 1) (0, a.length, 0, b.length)

/-- `SequenceMatcher(None, x, w).ratio() >= 0.8`, i.e. `2M/T >= 4/5`
(`setseq1 = x`, `set_seq2 = w`, exactly as `get_close_matches` assigns
them).  The ratios arising from the short names here are never close
enough to 0.8 for the binary rounding of the float cutoff to matter. -/
def ratioGeCutoff (x w : List Char) : Bool :=
  10 * matchSum x w ≥ 4 * (x.length + w.length)

/-- Python string `>` (code-point lexicographic). -/
def lexGT : List Char → List Char → Bool
  | [], _ => false
  | _ :: _, [] => true
  | c :: xs, d :: ys => if c = d then lexGT xs ys else decide (d.val < c.val)

/-- Is `(ratio x, x) > (ratio y, y)` as Python compares the
`(score, string)` pairs inside `heapq.nlargest`? -/
def ratioPairGT (x y w : List Char) : Bool :=
  let mx := matchSum x w
  let my := matchSum y w
  let tx := x.length + w.length
  let ty := y.length + w.length
  (mx * ty > my * tx) || (mx * ty = my * tx && lexGT x y)

/-- `difflib.get_close_matches(word, possibilities, n=1, cutoff=0.8)`,
returning the single best match if any possibility clears the cutoff
(first occurrence wins ties, larger string wins equal-ratio ties, per the
stable ordering of `nlargest` on `(score, x)` pairs). -/
def get_close_matches1 (word : String) (poss : List String) : Option String :=
  let w := word.toList
  (poss.filter (fun x => ratioGeCutoff x.toList w)).foldl
    (fun best x =>
      match best with
      | none => some x
      | some b => if ratioPairGT x.toList b.toList w then some x else best)
    none

/-! ## Guardrails: `OrganizerApp` of ai_organizer.py -/

/-- The per-run guardrail configuration and shared directory snapshot:
`root_name`, the `stay_under_root`/`pin_terraform` checkboxes, the
`_dir_children` cache keyed by the path's segments relative to the scanned
folder, and the filesystem read used on a cache miss (`none` = the
`iterdir` call raises and the source falls back to `[]`). -/
structure GuardCtx where
  rootName : String
  stayUnderRoot : Bool
  pinTerraform : Bool
  dirChildren : List (List String × List String)
  fsChildren : List String → Option (List String)

/-- `TF_EXTS` (ai_organizer.py line 37). -/
def TF_EXTS : List String := [".tf", ".tfvars", ".tfstate", ".lock.hcl"]

/-- `PurePath.suffix` of a file name: `name[i:]` for the last dot position
`i` when `0 < i < len(name) - 1`, else the empty string. -/
def pySuffix (name : String) : String :=
  let l := name.toList
  match ((List.range l.length).filter (fun i => l.getD i ' ' == '.')).getLast? with
  | some i => if 0 < i ∧ i < l.length - 1 then (l.drop i).asString else ""
  | none => ""

/-- Python `str.endswith`. -/
def pyEndsWith (s suffix : String) : Bool :=
  prefixEq suffix.toList.reverse s.toList.reverse

/-- The pin condition of `_apply_guardrails`:
`file_path.suffix.lower() in TF_EXTS or file_path.name.endswith(".lock.hcl")`. -/
def isPinnedName (name : String) : Bool :=
  TF_EXTS.contains (pyLower (pySuffix name)) || pyEndsWith name ".lock.hcl"

/-- `str(PurePosixPath(a) / b)` for a slash-free component `a` (as
`Path.name` always is) and a relative `b`. -/
def joinPath (a b : String) : String :=
  if b = "" then (if a = "" then "." else a)
  else if a = "" ∨ a = "." then b else a ++ "/" ++ b

/-- `[p for p in rel.strip("/").split("/") if p]`. -/
def partsOf (rel : String) : List String :=
  ((splitCh '/' (stripCharsL ['/'] rel.toList)).filter (· ≠ [])).map List.asString

/-- `OrganizerApp._starts_with_root`. -/
def starts_with_root (root rel : String) : Bool :=
  match partsOf rel with
  | [] => false
  | p :: _ => pyLower p == pyLower root

/-- `OrganizerApp._iter_children`: the `_dir_children` cache, falling back
to a filesystem read whose failure yields `[]` (fail-open).  The cache
write-back is invisible here because the map and the read are
deterministic. -/
def iterChildren (ctx : GuardCtx) (cur : List String) : List String :=
  match ctx.dirChildren.lookup cur with
  | some ns => ns
  | none => (ctx.fsChildren cur).getD []

/-- `cur = cur / chosen`: `PurePath` drops `"."` components. -/
def joinSeg (cur : List String) (seg : String) : List String :=
  if seg = "." then cur else cur ++ [seg]

/-- The snapping walk over the post-root segments. -/
def snapGo (ctx : GuardCtx) : List String → List String → List String
  | _, [] => []
  | cur, seg :: rest =>
    let children := iterChildren ctx cur
    let chosen := (get_close_matches1 seg children).getD seg
    chosen :: snapGo ctx (joinSeg cur chosen) rest

/-- `OrganizerApp._snap_to_existing_dirs` (cutoff 0.8). -/
def snap_to_existing_dirs (ctx : GuardCtx) (rel : String) : String :=
  match partsOf rel with
  | [] => rel
  | p :: rest =>
    let segs := if pyLower p ≠ pyLower ctx.rootName then p :: rest else rest
    (joinSlash ((ctx.rootName :: snapGo ctx [] segs).map String.toList)).asString

/-- `OrganizerApp._apply_guardrails`: sanitize, then the Terraform pin
(immediate return), then root containment, then snapping.  The
`try/except` around the snap call is dead (the reads inside
`_iter_children` already swallow their exceptions), so the snap is total;
the `none` of the sanitizer (its `IndexError` on an empty stripped
candidate) propagates to the caller. -/
def apply_guardrails (ctx : GuardCtx) (fileName : String) (aiPath : String) :
    Option String :=
  (sanitize_path aiPath).map fun rel =>
    if ctx.pinTerraform && isPinnedName fileName then
      joinPath ctx.rootName "infrastructure/terraform"
    else
      let rel := if ctx.stayUnderRoot && !starts_with_root ctx.rootName rel then
                   joinPath ctx.rootName rel
                 else rel
      snap_to_existing_dirs ctx rel

/-! ## The two-pass worker: `OrganizerApp._process_file_two_pass` -/

/-- One history record (`self.history[sig]`); `aiPath` is the `"ai_path"`
field, absent fields defaulting to `"Uncategorized"` via `.get`. -/
structure HistEntry where
  aiPath : Option String
deriving DecidableEq

/-- First pass: the cache hit returns the stored path verbatim; otherwise
the oracle text goes through the guardrails. -/
def firstPassOf (ctx : GuardCtx) (history : List (String × HistEntry))
    (ignoreCache : Bool) (fileName sig text1 : String) : Option (String × String) :=
  match history.lookup sig, ignoreCache with
  | some e, false => some (e.aiPath.getD "Uncategorized", "Cached")
  | _, _ => (apply_guardrails ctx fileName text1).map (·, "AI suggested")

/-- The refinement step: `refined_path or first_path` (the empty string is
falsy). -/
def refineStep (ctx : GuardCtx) (fileName firstPath text : String) : Option String :=
  (apply_guardrails ctx fileName text).map
    (fun refined => if refined = "" then firstPath else refined)

/-- `OrganizerApp._process_file_two_pass`, with the oracle calls
abstracted: `text1` is the first-pass response (already the
`"Uncategorized"` fallback if the backend raised) and `text2` maps the
first-pass path to the refinement response (the identity-like fallback on
a backend exception).  Cancellation is not modelled (the cancel event is
taken as unset). -/
def process_file_two_pass (ctx : GuardCtx) (history : List (String × HistEntry))
    (ignoreCache refine : Bool) (fileName sig text1 : String)
    (text2 : String → String) : Option (String × String) :=
  match firstPassOf ctx history ignoreCache fileName sig text1 with
  | none => none
  | some (first, src) =>
    if refine then
      match refineStep ctx fileName first (text2 first) with
      | none => none
      | some final => some (final, src ++ " → Refined")
    else some (first, src)

/-- `_refine_ai_path_enhanced` (ai_file_organizer.py).  Its helper
`extract_clean_path` is imported from ai_backends but not defined in the
repository, so it stays abstract as the parameter `ecp`; `text` is the
refinement oracle's response (the fallback `first_path` on an exception).
The cancel event is taken as unset. -/
def refine_ai_path_enhanced (ecp : String → String) (firstPath text : String) : String :=
  let refined := ecp text
  if refined = "" || pyLower refined = "uncategorized" then firstPath
  else if pyLower (pyStrip refined) = pyLower (pyStrip firstPath) then firstPath
  else refined

/-! ## File signatures: `OrganizerApp._signature` -/

/-- A successful `stat` result: size and the already-truncated
`int(st_mtime)`. -/
structure FileStat where
  size : Nat
  mtime : Int
deriving DecidableEq

/-- A file as the signature function sees it: its location, basename and
the outcome of `stat` (`none` = `stat` raises). -/
structure FsFile where
  path : List String
  name : String
  stat : Option FileStat
deriving DecidableEq

/-- `OrganizerApp._signature` (identical in ai_organizer.py and
ai_file_organizer.py): `f"{p.name}|{st.st_size}|{int(st.st_mtime)}"`, with
the fixed fallback `f"{p.name}|0|0"` when `stat` raises. -/
def signature (p : FsFile) : String :=
  match p.stat with
  | some st => p.name ++ "|" ++ toString st.size ++ "|" ++ toString st.mtime
  | none => p.name ++ "|0|0"

/-! ## Structural lemmas about the string primitives -/

theorem splitCh_ne_nil (sep : Char) (l : List Char) : splitCh sep l ≠ [] := by
  cases l with
  | nil => simp [splitCh]
  | cons c rest =>
    unfold splitCh
    split
    · simp
    · split <;> simp

theorem splitCh_cons_sep (sep : Char) (rest : List Char) :
    splitCh sep (sep :: rest) = [] :: splitCh sep rest := by
  simp [splitCh]

theorem splitCh_cons_ne (sep c : Char) (rest : List Char) (hc : c ≠ sep) :
    splitCh sep (c :: rest) =
      match splitCh sep rest with
      | [] => [[c]]
      | s :: ss => (c :: s) :: ss := by
  simp [splitCh, hc]

theorem splitCh_append_sep (a b : List Char) :
    splitCh '/' (a ++ '/' :: b) = splitCh '/' a ++ splitCh '/' b := by
  induction a with
  | nil => simp [splitCh_cons_sep, splitCh]
  | cons c a' ih =>
    by_cases hc : c = '/'
    · subst hc
      rw [List.cons_append, splitCh_cons_sep, splitCh_cons_sep, ih]
      rfl
    · rw [List.cons_append, splitCh_cons_ne _ _ _ hc, splitCh_cons_ne _ _ _ hc, ih]
      cases h : splitCh '/' a' with
      | nil => exact absurd h (splitCh_ne_nil _ _)
      | cons s ss => simp

theorem partsNS_append_sep (a b : List Char) :
    partsNS (a ++ '/' :: b) = partsNS a ++ partsNS b := by
  simp [partsNS, splitCh_append_sep, List.filter_append]

theorem splitCh_no_sep (a : List Char) (h : ∀ c ∈ a, c ≠ '/') :
    splitCh '/' a = [a] := by
  induction a with
  | nil => rfl
  | cons c a' ih =>
    have hc : c ≠ '/' := h c (by simp)
    simp only [splitCh, if_neg hc]
    rw [ih (fun d hd => h d (by simp [hd]))]

theorem partsNS_no_sep (a : List Char) (h1 : a ≠ []) (h2 : ∀ c ∈ a, c ≠ '/') :
    partsNS a = [a] := by
  simp [partsNS, splitCh_no_sep a h2, h1]

theorem partsNS_nil : partsNS [] = [] := rfl

/-- Dropping leading separators does not change the nonempty pieces. -/
theorem partsNS_dropWhile (l : List Char) :
    partsNS (l.dropWhile (fun c => ['/'].contains c)) = partsNS l := by
  induction l with
  | nil => rfl
  | cons c rest ih =>
    by_cases hc : c = '/'
    · subst hc
      rw [List.dropWhile_cons_of_pos (by simp)]
      rw [ih]
      simp [partsNS, splitCh, if_pos rfl]
    · rw [List.dropWhile_cons_of_neg (by simp [hc])]

/-- Dropping trailing separators does not change the nonempty pieces
(stated through the reversed list). -/
theorem partsNS_dropWhile_rev (r : List Char) :
    partsNS (r.dropWhile (fun c => ['/'].contains c)).reverse = partsNS r.reverse := by
  induction r with
  | nil => rfl
  | cons c r' ih =>
    by_cases hc : c = '/'
    · subst hc
      rw [List.dropWhile_cons_of_pos (by simp)]
      rw [ih]
      have : ('/' :: r').reverse = r'.reverse ++ '/' :: [] := by simp
      rw [this, partsNS_append_sep]
      simp [partsNS_nil]
    · rw [List.dropWhile_cons_of_neg (by simp [hc])]

/-- The edge strip of `strip("/")` is invisible after splitting and
filtering. -/
theorem partsNS_stripChars (l : List Char) :
    partsNS (stripCharsL ['/'] l) = partsNS l := by
  unfold stripCharsL stripBy
  rw [partsNS_dropWhile_rev, List.reverse_reverse, partsNS_dropWhile]

theorem partsOf_eq_partsNS (s : String) :
    partsOf s = (partsNS s.toList).map List.asString := by
  unfold partsOf
  rw [show ((splitCh '/' (stripCharsL ['/'] s.toList)).filter (· ≠ [])) =
        partsNS (stripCharsL ['/'] s.toList) from rfl,
    partsNS_stripChars]

theorem joinSlash_cons (p : List Char) (ps : List (List Char)) (h : ps ≠ []) :
    joinSlash (p :: ps) = p ++ '/' :: joinSlash ps := by
  cases ps with
  | nil => exact absurd rfl h
  | cons q qs => rfl

/-- `partsNS` of a join is the concatenation of the pieces' `partsNS`. -/
theorem partsNS_joinSlash (ps : List (List Char)) :
    partsNS (joinSlash ps) = (ps.map partsNS).flatten := by
  induction ps with
  | nil => rfl
  | cons p ps ih =>
    cases ps with
    | nil => simp [joinSlash]
    | cons q qs =>
      rw [joinSlash_cons p (q :: qs) (by simp), partsNS_append_sep, ih]
      simp

/-- For nonempty slash-free pieces the join splits back into the pieces. -/
theorem partsNS_joinSlash_clean (ps : List (List Char))
    (h : ∀ p ∈ ps, p ≠ [] ∧ ∀ c ∈ p, c ≠ '/') :
    partsNS (joinSlash ps) = ps := by
  rw [partsNS_joinSlash]
  induction ps with
  | nil => rfl
  | cons p ps ih =>
    have hp := h p (by simp)
    rw [List.map_cons, List.flatten_cons, partsNS_no_sep p hp.1 hp.2,
      ih (fun q hq => h q (by simp [hq]))]
    rfl

/-- Every piece produced by `splitCh` is free of the separator. -/
theorem splitCh_pieces_no_sep (sep : Char) (l : List Char) :
    ∀ s ∈ splitCh sep l, ∀ c ∈ s, c ≠ sep := by
  induction l with
  | nil => intro s hs c hc; simp [splitCh] at hs; simp [hs] at hc
  | cons d rest ih =>
    intro s hs c hc
    by_cases hd : d = sep
    · subst hd
      rw [splitCh_cons_sep] at hs
      rcases List.mem_cons.mp hs with rfl | h
      · simp at hc
      · exact ih s h c hc
    · rw [splitCh_cons_ne _ _ _ hd] at hs
      cases h : splitCh sep rest with
      | nil => exact absurd h (splitCh_ne_nil _ _)
      | cons t ts =>
        rw [h] at hs
        rcases List.mem_cons.mp hs with rfl | hmem
        · rcases List.mem_cons.mp hc with rfl | hc2
          · exact hd
          · exact ih t (by simp [h]) c hc2
        · exact ih s (by simp [h, hmem]) c hc

theorem partsNS_pieces (l : List Char) :
    ∀ s ∈ partsNS l, s ≠ [] ∧ ∀ c ∈ s, c ≠ '/' := by
  intro s hs
  unfold partsNS at hs
  rw [List.mem_filter] at hs
  exact ⟨by simpa using hs.2, splitCh_pieces_no_sep '/' l s hs.1⟩

/-- A well-formed root name: what `Path.name` yields for an ordinary
chosen folder (nonempty, not `"."`, and containing no slash). -/
def RootOk (r : String) : Prop :=
  r ≠ "" ∧ r ≠ "." ∧ ∀ c ∈ r.toList, c ≠ '/'

/-- Well-formed directory snapshots: every child name recorded in the
cache or returned by a filesystem read is a nonempty, slash-free name (as
operating-system directory entries always are). -/
def ChildrenOk (ctx : GuardCtx) : Prop :=
  (∀ p cs, (p, cs) ∈ ctx.dirChildren → ∀ n ∈ cs, n ≠ "" ∧ ∀ c ∈ n.toList, c ≠ '/') ∧
  (∀ p cs, ctx.fsChildren p = some cs → ∀ n ∈ cs, n ≠ "" ∧ ∀ c ∈ n.toList, c ≠ '/')

/-- Sanitize twice (`sanitize(sanitize(x))`), propagating the `IndexError`. -/
def sanitizeTwice (x : String) : Option String :=
  (sanitize_path x).bind sanitize_path

/-- An oracle response that is exactly one fenced code block whose body is
`src/components`. -/
def fencedInput : String := "```\nsrc/components\n```"

/-- A guardrail context with both checkboxes on, root `"Root"`, an empty
directory snapshot and a failing filesystem. -/
def baseCtx : GuardCtx :=
  { rootName := "Root", stayUnderRoot := true, pinTerraform := true,
    dirChildren := [], fsChildren := fun _ => none }

/-- The directory snapshot for the taxonomy-snapper claim: the scanned
folder has children `Documents` and `Media`, `Documents` has child
`Reports`, `Documents/Reports` has children `Archive` and `Media`, and
every other directory read fails. -/
def snapCtx : GuardCtx :=
  { rootName := "Root", stayUnderRoot := true, pinTerraform := true,
    dirChildren := [([], ["Documents", "Media"]), (["Documents"], ["Reports"]),
                    (["Documents", "Reports"], ["Archive", "Media"])],
    fsChildren := fun _ => none }

/-- `get_close_matches1` only returns elements of the possibility list. -/
theorem get_close_matches1_mem (word : String) (poss : List String) (x : String)
    (h : get_close_matches1 word poss = some x) : x ∈ poss := by
  unfold get_close_matches1 at h
  have main : ∀ (l : List String) (acc : Option String),
      (∀ y, acc = some y → y ∈ poss) → (∀ y ∈ l, y ∈ poss) →
      ∀ y, l.foldl (fun best x =>
        match best with
        | none => some x
        | some b => if ratioPairGT x.toList b.toList word.toList then some x else best)
        acc = some y → y ∈ poss := by
    intro l
    induction l with
    | nil => intro acc hacc _ y hy; exact hacc y hy
    | cons z zs ih =>
      intro acc hacc hl y hy
      simp only [List.foldl_cons] at hy
      refine ih _ ?_ (fun w hw => hl w (by simp [hw])) y hy
      intro w hw
      cases acc with
      | none => simp at hw; subst hw; exact hl z (by simp)
      | some b =>
        simp only at hw
        split at hw
        · simp at hw; subst hw; exact hl z (by simp)
        · simp at hw; subst hw; exact hacc b rfl
  exact main _ none (by simp) (fun y hy => (List.mem_filter.mp hy).1) x h

/-! ## Strip lemmas -/

theorem dropWhile_eq_nil_of_all {p : Char → Bool} {l : List Char}
    (h : l.all p) : l.dropWhile p = [] := by
  induction l with
  | nil => rfl
  | cons c rest ih =>
    simp only [List.all_cons, Bool.and_eq_true] at h
    rw [List.dropWhile_cons_of_pos h.1]
    exact ih h.2

theorem all_of_dropWhile_eq_nil {p : Char → Bool} {l : List Char}
    (h : l.dropWhile p = []) : l.all p := by
  induction l with
  | nil => rfl
  | cons c rest ih =>
    by_cases hc : p c
    · rw [List.dropWhile_cons_of_pos hc] at h
      simp [hc, ih h]
    · rw [List.dropWhile_cons_of_neg hc] at h
      cases h

theorem head?_dropWhile_false (p : Char → Bool) (l : List Char) :
    ∀ c, (l.dropWhile p).head? = some c → p c = false := by
  induction l with
  | nil => intro c hc; cases hc
  | cons d rest ih =>
    intro c hc
    by_cases hd : p d
    · rw [List.dropWhile_cons_of_pos hd] at hc
      exact ih c hc
    · rw [List.dropWhile_cons_of_neg hd] at hc
      cases hc
      simpa using hd

/-- A list fixed by `stripBy` that consists only of `p`-characters is
empty (the head of a `dropWhile` result never satisfies `p`). -/
theorem stripBy_all_eq_nil {p : Char → Bool} (l : List Char)
    (h : (stripBy p l).all p) : stripBy p l = [] := by
  unfold stripBy at *
  cases hX : (l.dropWhile p).reverse.dropWhile p with
  | nil => simp [hX]
  | cons c r =>
    exfalso
    have hc : p c = false :=
      head?_dropWhile_false p (l.dropWhile p).reverse c (by rw [hX]; rfl)
    rw [hX] at h
    simp only [List.all_reverse, List.all_cons, Bool.and_eq_true] at h
    rw [h.1] at hc
    cases hc

theorem all_takeWhile' (p : Char → Bool) (l : List Char) : (l.takeWhile p).all p := by
  induction l with
  | nil => rfl
  | cons c rest ih =>
    rw [List.takeWhile_cons]
    split
    · simp only [List.all_cons, Bool.and_eq_true]
      exact ⟨by assumption, ih⟩
    · rfl

theorem stripBy_nil_of_all {p : Char → Bool} {l : List Char}
    (h : l.all p) : stripBy p l = [] := by
  unfold stripBy
  rw [dropWhile_eq_nil_of_all h]
  rfl

theorem stripBy_eq_nil_fwd {p : Char → Bool} {l : List Char}
    (h : stripBy p l = []) : l.all p := by
  unfold stripBy at h
  rw [List.reverse_eq_nil_iff] at h
  have h2 : ((l.dropWhile p).reverse).all p := all_of_dropWhile_eq_nil h
  rw [List.all_reverse] at h2
  calc l.all p = (l.takeWhile p ++ l.dropWhile p).all p := by
        rw [List.takeWhile_append_dropWhile]
    _ = true := by rw [List.all_append, all_takeWhile' p l, h2]; rfl

theorem dropWhile_eq_self_of_head {p : Char → Bool} {l : List Char}
    (h : ∀ c, l.head? = some c → p c = false) : l.dropWhile p = l := by
  cases l with
  | nil => rfl
  | cons c rest =>
    rw [List.dropWhile_cons_of_neg]
    simp [h c rfl]

theorem stripBy_eq_self {p : Char → Bool} {l : List Char}
    (h1 : ∀ c, l.head? = some c → p c = false)
    (h2 : ∀ c, l.getLast? = some c → p c = false) : stripBy p l = l := by
  unfold stripBy
  rw [dropWhile_eq_self_of_head h1,
    dropWhile_eq_self_of_head (by rw [List.head?_reverse]; exact h2),
    List.reverse_reverse]

/-! ## The sanitizer succeeds on any input with nonempty strip -/

theorem splitLinesGo_ne_nil (acc l : List Char) : splitLinesGo acc l ≠ [] := by
  induction l generalizing acc with
  | nil => simp [splitLinesGo]
  | cons c rest ih =>
    unfold splitLinesGo
    split
    · simp
    · exact ih _

theorem splitLinesL_ne_nil (l : List Char) (h : l ≠ []) : splitLinesL l ≠ [] := by
  unfold splitLinesL
  rw [if_neg (by simpa using h)]
  exact splitLinesGo_ne_nil [] (normCRLF l)

/-- The shape of every `pickBestCand` result on stripped candidates:
empty, or a slash-join of nonempty stripped pieces. -/
theorem pickBestCand_shape (cands : List (List Char)) :
    pickBestCand cands = [] ∨
    (∃ ps : List (List Char), pickBestCand cands = joinSlash ps ∧
      ∀ q ∈ ps, q ≠ [] ∧ ∃ x, q = pyStripL x) := by
  cases cands with
  | nil => left; rfl
  | cons c cs =>
    right
    refine ⟨_, rfl, ?_⟩
    intro q hq
    have hq1 : q ∈ (List.map pyStripL (splitCh '/' _)).filter (· ≠ []) :=
      List.mem_of_mem_take hq
    have hq2 := List.mem_filter.mp hq1
    obtain ⟨x, _, hx⟩ := List.mem_map.mp hq2.1
    exact ⟨by simpa using hq2.2, x, hx.symm⟩

/-- The shape of every `_extract_path_from_text` result: empty, a stripped
JSON group, or a slash-join of nonempty stripped pieces. -/
theorem extractTextL_shape (t : List Char) :
    extractTextL t = [] ∨ (∃ g, extractTextL t = pyStripL g) ∨
    (∃ ps : List (List Char), extractTextL t = joinSlash ps ∧
      ∀ q ∈ ps, q ≠ [] ∧ ∃ x, q = pyStripL x) := by
  unfold extractTextL
  split
  · left; rfl
  · split
    · right; left; exact ⟨_, rfl⟩
    · rcases pickBestCand_shape
        (((findall1 (proseSubL proseAlts1 (headingSubL (thinkSubL (fenceSubL t))))).filter
          (fun c => c.contains '/' || (wordsL c).length ≤ 4)).map pyStripL) with h | h
      · left; exact h
      · right; right; exact h

/-- A nonempty extractor output survives stripping. -/
theorem pyStripL_extractTextL_ne (t : List Char) (h : extractTextL t ≠ []) :
    pyStripL (extractTextL t) ≠ [] := by
  rcases extractTextL_shape t with h0 | ⟨g, hg⟩ | ⟨ps, hps, hq⟩
  · exact absurd h0 h
  · rw [hg]
    intro hnil
    have hall : (pyStripL g).all pyWs := stripBy_eq_nil_fwd hnil
    have := stripBy_all_eq_nil g hall
    rw [hg] at h
    exact h this
  · rw [hps]
    intro hnil
    have hall : (joinSlash ps).all pyWs := stripBy_eq_nil_fwd hnil
    cases ps with
    | nil => rw [hps] at h; exact h rfl
    | cons q rest =>
      obtain ⟨hqne, x, hx⟩ := hq q (by simp)
      have hqall : q.all pyWs := by
        cases rest with
        | nil => simpa [joinSlash] using hall
        | cons r rs =>
          rw [joinSlash_cons q (r :: rs) (by simp), List.all_append] at hall
          exact (Bool.and_eq_true _ _ |>.mp hall).1
      rw [hx] at hqall
      exact hqne (hx ▸ stripBy_all_eq_nil x hqall)

/-- `_sanitize_path` returns a value whenever the whitespace-trim of the
input is nonempty (otherwise `splitlines()[0]` raises). -/
theorem sanitizeL_isSome (l : List Char) (h : pyStripL l ≠ []) :
    (sanitizeL l).isSome := by
  have key : ∀ cand : List Char, pyStripL cand ≠ [] →
      (match splitLinesL (replaceBsL (pyStripL cand)) with
        | [] => (none : Option (List Char))
        | line :: _ => some (sanitizeTail line)).isSome := by
    intro cand hc
    have hrep : replaceBsL (pyStripL cand) ≠ [] := by
      unfold replaceBsL
      simpa using hc
    cases hsp : splitLinesL (replaceBsL (pyStripL cand)) with
    | nil => exact absurd hsp (splitLinesL_ne_nil _ hrep)
    | cons line rest => simp [hsp]
  cases hex : (extractTextL l).isEmpty with
  | true =>
    have hrw : sanitizeL l =
        (match splitLinesL (replaceBsL (pyStripL l)) with
          | [] => none
          | line :: _ => some (sanitizeTail line)) := by
      simp only [sanitizeL, hex, if_true]
    rw [hrw]
    exact key l h
  | false =>
    have hrw : sanitizeL l =
        (match splitLinesL (replaceBsL (pyStripL (extractTextL l))) with
          | [] => none
          | line :: _ => some (sanitizeTail line)) := by
      simp only [sanitizeL, hex]
      rfl
    rw [hrw]
    exact key (extractTextL l) (pyStripL_extractTextL_ne l (by simpa using hex))

/-! ## String / path bridging lemmas -/

theorem toList_append (a b : String) : (a ++ b).toList = a.toList ++ b.toList := by
  cases a; cases b; rfl

theorem toList_asString (l : List Char) : (List.asString l).toList = l := rfl

theorem asString_toList (s : String) : s.toList.asString = s := by
  cases s; rfl

theorem asString_data (s : String) : s.data.asString = s := by
  cases s; rfl

theorem toList_ne_nil {s : String} (h : s ≠ "") : s.toList ≠ [] := by
  intro h2
  apply h
  have := congrArg List.asString h2
  rwa [asString_toList] at this

theorem lookup_mem {α β : Type} [BEq α] [LawfulBEq α] {l : List (α × β)} {k : α} {v : β}
    (h : l.lookup k = some v) : (k, v) ∈ l := by
  induction l with
  | nil => cases h
  | cons p rest ih =>
    rw [List.lookup] at h
    split at h
    · rename_i heq
      cases h
      have : k = p.1 := eq_of_beq heq
      rw [this]
      simp
    · exact List.mem_cons_of_mem _ (ih h)

theorem joinPath_eq {a b : String} (h1 : a ≠ "") (h2 : a ≠ ".") (h3 : b ≠ "") :
    joinPath a b = a ++ "/" ++ b := by
  unfold joinPath
  rw [if_neg h3, if_neg (by simp [h1, h2])]

theorem joinPath_empty_right {a : String} (h : a ≠ "") : joinPath a "" = a := by
  unfold joinPath
  rw [if_pos rfl, if_neg h]

/-- `partsOf (root ++ "/" ++ x) = root :: partsOf x` for a proper root. -/
theorem partsOf_append_root (root x : String) (h : RootOk root) :
    partsOf (root ++ "/" ++ x) = root :: partsOf x := by
  rw [partsOf_eq_partsNS, partsOf_eq_partsNS]
  have htl : (root ++ "/" ++ x).toList = root.toList ++ '/' :: x.toList := by
    rw [toList_append, toList_append]
    simp [List.append_assoc]
  rw [htl, partsNS_append_sep, partsNS_no_sep root.toList (toList_ne_nil h.1) h.2.2]
  simp [asString_data]

theorem partsOf_root_single (root : String) (h : RootOk root) :
    partsOf root = [root] := by
  rw [partsOf_eq_partsNS, partsNS_no_sep root.toList (toList_ne_nil h.1) h.2.2]
  simp [asString_data]

theorem starts_with_root_of_parts {root rel : String} {rest : List String}
    (h : partsOf rel = root :: rest) : starts_with_root root rel = true := by
  unfold starts_with_root
  rw [h]
  simp

theorem partsOf_ne_of_starts {root rel : String}
    (h : starts_with_root root rel = true) : partsOf rel ≠ [] := by
  unfold starts_with_root at h
  intro h2
  rw [h2] at h
  cases h

/-- The head piece of a join led by a proper root is the root itself. -/
theorem partsOf_join_root_cons (root : String) (tail : List String) (h : RootOk root) :
    ∃ rest, partsOf ((joinSlash ((root :: tail).map String.toList)).asString)
      = root :: rest := by
  rw [partsOf_eq_partsNS, toList_asString, List.map_cons, partsNS_joinSlash,
    List.map_cons, List.flatten_cons,
    partsNS_no_sep root.toList (toList_ne_nil h.1) h.2.2]
  refine ⟨List.map List.asString ((List.map partsNS (tail.map String.toList)).flatten), ?_⟩
  rw [show [root.toList] ++ (List.map partsNS (tail.map String.toList)).flatten
      = root.toList :: (List.map partsNS (tail.map String.toList)).flatten from rfl,
    List.map_cons]
  cases root
  rfl

theorem starts_join_root (root : String) (tail : List String) (h : RootOk root) :
    starts_with_root root ((joinSlash ((root :: tail).map String.toList)).asString)
      = true := by
  obtain ⟨rest, hrest⟩ := partsOf_join_root_cons root tail h
  exact starts_with_root_of_parts hrest

/-- The snapper always emits a path whose first segment is the root,
whenever the input has at least one segment. -/
theorem starts_snap (ctx : GuardCtx) (rel : String) (h : RootOk ctx.rootName)
    (hne : partsOf rel ≠ []) :
    starts_with_root ctx.rootName (snap_to_existing_dirs ctx rel) = true := by
  unfold snap_to_existing_dirs
  cases hp : partsOf rel with
  | nil => exact absurd hp hne
  | cons p rest => exact starts_join_root ctx.rootName _ h

theorem partsNS_len_le_one {x : List Char} (h : ∀ c ∈ x, c ≠ '/') :
    (partsNS x).length ≤ 1 := by
  cases hx : x with
  | nil => simp [partsNS_nil]
  | cons c r =>
    rw [← hx, partsNS_no_sep x (by simp [hx]) h]
    simp

/-- Joining slash-free pieces yields at most as many segments as pieces. -/
theorem partsOf_joinSlash_le (ls : List String)
    (h : ∀ s ∈ ls, ∀ c ∈ s.toList, c ≠ '/') :
    (partsOf ((joinSlash (ls.map String.toList)).asString)).length ≤ ls.length := by
  rw [partsOf_eq_partsNS, toList_asString, partsNS_joinSlash, List.length_map]
  induction ls with
  | nil => simp
  | cons s rest ih =>
    rw [List.map_cons, List.map_cons, List.flatten_cons, List.length_append]
    have h1 : (partsNS s.toList).length ≤ 1 :=
      partsNS_len_le_one (h s (by simp))
    have h2 := ih (fun q hq => h q (by simp [hq]))
    simp only [List.length_cons]
    omega

theorem snapGo_length (ctx : GuardCtx) (segs : List String) :
    ∀ cur, (snapGo ctx cur segs).length = segs.length := by
  induction segs with
  | nil => intro cur; rfl
  | cons s rest ih => intro cur; simp [snapGo, ih]

/-- Every name the snapper emits is slash-free, given slash-free inputs
and a well-formed snapshot. -/
theorem snapGo_slashfree (ctx : GuardCtx) (hch : ChildrenOk ctx) (segs : List String)
    (hs : ∀ s ∈ segs, ∀ c ∈ s.toList, c ≠ '/') :
    ∀ cur, ∀ x ∈ snapGo ctx cur segs, ∀ c ∈ x.toList, c ≠ '/' := by
  induction segs with
  | nil => intro cur x hx; cases hx
  | cons s rest ih =>
    intro cur x hx
    rw [snapGo] at hx
    have hchosen : ∀ y, ((get_close_matches1 s (iterChildren ctx cur)).getD s) = y →
        ∀ c ∈ y.toList, c ≠ '/' := by
      intro y hy
      cases hm : get_close_matches1 s (iterChildren ctx cur) with
      | none =>
        rw [hm] at hy
        simp at hy
        exact hy ▸ hs s (by simp)
      | some m =>
        rw [hm] at hy
        simp at hy
        subst hy
        have hmem : m ∈ iterChildren ctx cur := get_close_matches1_mem _ _ _ hm
        unfold iterChildren at hmem
        revert hmem
        split
        · rename_i ns hlk
          intro hmem
          exact (hch.1 cur ns (lookup_mem hlk) m hmem).2
        · intro hmem
          cases hfs : ctx.fsChildren cur with
          | none => rw [hfs] at hmem; cases hmem
          | some ns =>
            rw [hfs] at hmem
            exact (hch.2 cur ns hfs m (by simpa using hmem)).2
    rcases List.mem_cons.mp hx with rfl | hx2
    · exact hchosen _ rfl
    · exact ih (fun q hq => hs q (by simp [hq])) _ x hx2

/-- Every segment produced by `partsOf` is slash-free and nonempty. -/
theorem partsOf_elems (rel : String) :
    ∀ s ∈ partsOf rel, s ≠ "" ∧ ∀ c ∈ s.toList, c ≠ '/' := by
  intro s hs
  rw [partsOf_eq_partsNS] at hs
  obtain ⟨q, hq, hqs⟩ := List.mem_map.mp hs
  have hqp := partsNS_pieces rel.toList q hq
  subst hqs
  constructor
  · intro hcon
    have := congrArg String.toList hcon
    rw [toList_asString] at this
    exact hqp.1 this
  · rw [toList_asString]
    exact hqp.2

/-- `sanitizeL` only returns first-line tails. -/
theorem sanitizeL_eq_tail {l tl : List Char} (h : sanitizeL l = some tl) :
    ∃ line, tl = sanitizeTail line := by
  simp only [sanitizeL] at h
  split at h
  · cases h
  · rename_i line rest heq
    exact ⟨line, by injection h with h2; exact h2.symm⟩

/-- The sanitizer's output never has more than three segments. -/
theorem sanitize_parts_le3 {x t : String} (h : sanitize_path x = some t) :
    (partsOf t).length ≤ 3 := by
  unfold sanitize_path at h
  obtain ⟨tl, htl, hts⟩ := Option.map_eq_some'.mp h
  obtain ⟨line, hline⟩ := sanitizeL_eq_tail htl
  subst hts hline
  unfold sanitizeTail
  rw [partsOf_eq_partsNS, toList_asString]
  have hclean := partsNS_joinSlash_clean
    ((partsNS (if ((pyStripL (line.dropWhile (· = '/'))).filter
        (fun c => !isInvalidChar c)).isEmpty then "Uncategorized".toList
      else (pyStripL (line.dropWhile (· = '/'))).filter
        (fun c => !isInvalidChar c))).take 3)
    (fun p hp => partsNS_pieces _ p (List.mem_of_mem_take hp))
  rw [hclean, List.length_map]
  exact List.length_take_le 3 _

/-- Length bound for the snapper: at most one segment (the root) plus the
number of walked segments. -/
theorem snap_parts_le (ctx : GuardCtx) (hroot : RootOk ctx.rootName)
    (hch : ChildrenOk ctx) (rel1 : String) (n : Nat)
    (hsegs : ∀ p rest, partsOf rel1 = p :: rest →
      (if pyLower p ≠ pyLower ctx.rootName then p :: rest else rest).length ≤ n) :
    (partsOf (snap_to_existing_dirs ctx rel1)).length ≤ max (partsOf rel1).length (1 + n) := by
  unfold snap_to_existing_dirs
  cases hp : partsOf rel1 with
  | nil => rw [hp]; simp
  | cons p rest =>
    have hsf : ∀ s ∈ (if pyLower p ≠ pyLower ctx.rootName then p :: rest else rest),
        ∀ c ∈ s.toList, c ≠ '/' := by
      intro s hs
      have hs2 : s ∈ p :: rest := by
        revert hs; split
        · exact id
        · exact fun hs => List.mem_cons_of_mem _ hs
      exact (partsOf_elems rel1 s (hp ▸ hs2)).2
    have hb := partsOf_joinSlash_le
      (ctx.rootName :: snapGo ctx [] (if pyLower p ≠ pyLower ctx.rootName then p :: rest else rest))
      (by
        intro s hs
        rcases List.mem_cons.mp hs with rfl | hs2
        · exact hroot.2.2
        · exact snapGo_slashfree ctx hch _ hsf [] s hs2)
    have hlen := snapGo_length ctx (if pyLower p ≠ pyLower ctx.rootName then p :: rest else rest) []
    have hn := hsegs p rest hp
    refine le_trans hb ?_
    simp only [List.length_cons, hlen]
    omega

/-! ## Well-formed paths: the domain where sanitization is the identity -/

/-- A character that can appear in a well-formed path: a candidate-grammar
character or the separator. -/
def isTextChar (c : Char) : Bool := isPathChar c || c == '/'

/-- No two adjacent characters of the list both satisfy `p`. -/
def noAdjPair (p : Char → Bool) : List Char → Bool
  | [] => true
  | [_] => true
  | c :: d :: rest => !(p c && p d) && noAdjPair p (d :: rest)

/-- A well-formed path segment: nonempty, over the path alphabet, and
neither starting nor ending with whitespace. -/
def WFseg (s : List Char) : Bool :=
  !s.isEmpty && s.all isPathChar &&
  s.head?.all (fun c => !pyWs c) && s.getLast?.all (fun c => !pyWs c)

/-- A well-formed path (as a character list): one to three well-formed
segments, no leading or trailing `'.'` on the whole path, no two adjacent
whitespace characters, at most four words when it has a single segment,
and free of the prose lead-in phrases that the parser would cut. -/
def WFPathL (l : List Char) : Bool :=
  decide ((splitCh '/' l).length ≤ 3) && (splitCh '/' l).all WFseg &&
  l.head?.all (fun c => !(c == '.')) && !l.isEmpty &&
  l.getLast?.all (fun c => !(c == '.')) &&
  noAdjPair pyWs l &&
  (decide (2 ≤ (splitCh '/' l).length) || decide ((wordsL l).length ≤ 4)) &&
  !occursCI "the cleaned compact path would be".toList l &&
  !occursCI "the path would be".toList l &&
  !occursCI "the best path is".toList l

/-- A well-formed path string. -/
def WellFormedPath (e : String) : Bool := WFPathL e.toList

/-! ### Character-level facts -/

theorem charToNat_ofNat {n : Nat} (h : n.isValidChar) : (Char.ofNat n).toNat = n := by
  unfold Char.ofNat
  rw [dif_pos h]
  rfl

/-- Lower-casing can only reach a target outside the lower-case letter
range if the character already is that target. -/
theorem toLower_ne_of_range {c target : Char}
    (hr : target.toNat < 97 ∨ 122 < target.toNat) (hne : c ≠ target) :
    c.toLower ≠ target := by
  intro heq
  simp only [Char.toLower] at heq
  by_cases h : c.toNat ≥ 65 ∧ c.toNat ≤ 90
  · rw [if_pos h] at heq
    have hv : (c.toNat + 32).isValidChar := Or.inl (by omega)
    have h2 := charToNat_ofNat hv
    rw [heq] at h2
    omega
  · rw [if_neg h] at heq
    exact hne heq

theorem text_of_path {c : Char} (h : isPathChar c = true) : isTextChar c = true := by
  simp [isTextChar, h]

theorem text_ne {c b : Char} (hc : isTextChar c = true) (hb : isTextChar b = false) :
    c ≠ b := by
  intro he
  rw [he, hb] at hc
  exact Bool.noConfusion hc

theorem slash_beq_false_of_path {c : Char} (h : isPathChar c = true) :
    (c == '/') = false := by
  cases hb : c == '/'
  · rfl
  · have h2 : c = '/' := by simpa using hb
    rw [h2] at h
    exact absurd h (by decide)

theorem invalid_false_of_text {c : Char} (h : isTextChar c = true) :
    isInvalidChar c = false := by
  cases hb : isInvalidChar c
  · rfl
  · exfalso
    simp only [isInvalidChar, Bool.or_eq_true, beq_iff_eq] at hb
    rcases hb with ((((((rfl | rfl) | rfl) | rfl) | rfl) | rfl) | rfl) <;>
      exact absurd h (by decide)

theorem linebrk_false_of_text {c : Char} (h : isTextChar c = true) :
    isLineBrk c = false := by
  cases hb : isLineBrk c
  · rfl
  · exfalso
    simp only [isLineBrk, Bool.or_eq_true, beq_iff_eq] at hb
    rcases hb with (((rfl | rfl) | rfl) | rfl) <;> exact absurd h (by decide)

theorem notin_dotslashspace {c : Char} (hp : isPathChar c = true)
    (hw : pyWs c = false) (hd : c ≠ '.') : c ∉ "./ ".toList := by
  intro hm
  rw [show "./ ".toList = ['.', '/', ' '] from rfl] at hm
  have h2 : c = '.' ∨ c = '/' ∨ c = ' ' := by simpa using hm
  rcases h2 with rfl | rfl | rfl
  · exact hd rfl
  · exact absurd hp (by decide)
  · exact absurd hw (by decide)

theorem contains_false_of_not_mem {c : Char} {cs : List Char} (h : c ∉ cs) :
    cs.contains c = false := by
  cases hb : cs.contains c
  · rfl
  · exact absurd (List.mem_of_elem_eq_true hb) h

/-! ### The case-insensitive matchers fail on well-formed text -/

theorem prefixCI_false_of_badchar {bad : Char} {pat : List Char}
    (hmem : bad ∈ pat) (hfix : pyLowerChar bad = bad)
    (hr : bad.toNat < 97 ∨ 122 < bad.toNat) (hbt : isTextChar bad = false) :
    ∀ t : List Char, (∀ c ∈ t, isTextChar c = true) → prefixCI pat t = false := by
  induction pat with
  | nil => exact absurd hmem (List.not_mem_nil bad)
  | cons p ps ih =>
    intro t ht
    cases t with
    | nil => rfl
    | cons c cs =>
      rcases List.mem_cons.mp hmem with heq | hmem2
      · have h1 : pyLowerChar c ≠ bad :=
          toLower_ne_of_range hr (text_ne (ht c (by simp)) hbt)
        show (pyLowerChar p == pyLowerChar c && prefixCI ps cs) = false
        rw [← heq, hfix]
        have h2 : (bad == pyLowerChar c) = false := by
          simp only [beq_eq_false_iff_ne, ne_eq]
          exact fun he => h1 he.symm
        rw [h2, Bool.false_and]
      · show (pyLowerChar p == pyLowerChar c && prefixCI ps cs) = false
        rw [ih hmem2 cs (fun d hd => ht d (by simp [hd])), Bool.and_false]

theorem occursCI_false_of_badchar (bad : Char) {pat : List Char}
    (hmem : bad ∈ pat) (hfix : pyLowerChar bad = bad)
    (hr : bad.toNat < 97 ∨ 122 < bad.toNat) (hbt : isTextChar bad = false) :
    ∀ l : List Char, (∀ c ∈ l, isTextChar c = true) → occursCI pat l = false := by
  intro l
  induction l with
  | nil =>
    intro _
    show prefixCI pat [] = false
    cases pat with
    | nil => exact absurd hmem (List.not_mem_nil bad)
    | cons p ps => rfl
  | cons c rest ih =>
    intro hl
    show (prefixCI pat (c :: rest) || occursCI pat rest) = false
    rw [prefixCI_false_of_badchar hmem hfix hr hbt (c :: rest) hl,
      ih (fun d hd => hl d (by simp [hd])), Bool.or_false]

/-! ### The scanners are the identity on well-formed text -/

theorem splitOnceSub_eq_none_of_notMem {p : Char} {ps : List Char} :
    ∀ {l : List Char}, p ∉ l → splitOnceSub (p :: ps) l = none := by
  intro l
  induction l with
  | nil => intro _; rfl
  | cons c rest ih =>
    intro h
    have hne : (p == c) = false := by
      simp only [beq_eq_false_iff_ne, ne_eq]
      intro he
      rw [he] at h
      exact h (List.mem_cons_self c rest)
    unfold splitOnceSub
    rw [if_neg (by simp [prefixEq, hne]), ih (fun hm => h (List.mem_cons_of_mem c hm))]

theorem splitOnceSubCI_eq_none {pat : List Char} (hpat : pat ≠ []) :
    ∀ {l : List Char}, occursCI pat l = false → splitOnceSubCI pat l = none := by
  intro l
  induction l with
  | nil =>
    intro _
    unfold splitOnceSubCI
    rw [if_neg (by simpa using hpat)]
  | cons c rest ih =>
    intro h
    have h2 : (prefixCI pat (c :: rest) || occursCI pat rest) = false := h
    rw [Bool.or_eq_false_iff] at h2
    unfold splitOnceSubCI
    rw [if_neg (by simp [h2.1]), ih h2.2]

theorem fenceSubL_eq_self {l : List Char} (h : splitOnceSub "```".toList l = none) :
    fenceSubL l = l := by
  unfold fenceSubL
  unfold fenceSubGo
  rw [h]

theorem thinkSubL_eq_self {l : List Char} (h : splitOnceSubCI "<think>".toList l = none) :
    thinkSubL l = l := by
  unfold thinkSubL
  unfold thinkSubGo
  rw [h]

theorem headingSubGo_eq_self :
    ∀ (l : List Char), (∀ c ∈ l, c ≠ '#') →
      ∀ (fuel : Nat) (flag : Bool), headingSubGo fuel flag l = l := by
  intro l
  induction l with
  | nil => intro _ fuel flag; cases fuel <;> rfl
  | cons c rest ih =>
    intro h fuel flag
    cases fuel with
    | zero => rfl
    | succ fuel =>
      unfold headingSubGo
      rw [if_neg (fun hx => h c (by simp) hx.2)]
      rw [ih (fun d hd => h d (by simp [hd]))]

theorem proseSubGo_eq_self {alts : List (List Char)} :
    ∀ (l : List Char), (∀ alt ∈ alts, occursCI alt l = false) →
      ∀ (fuel : Nat) (pw : Bool), proseSubGo alts fuel pw l = l := by
  intro l
  induction l with
  | nil => intro _ fuel pw; cases fuel <;> rfl
  | cons c rest ih =>
    intro h fuel pw
    cases fuel with
    | zero => rfl
    | succ fuel =>
      have hfind : alts.find? (fun alt =>
          prefixCI alt (c :: rest) &&
            proseTrailOk alt ((c :: rest).drop alt.length)) = none := by
        rw [List.find?_eq_none]
        intro alt hmem
        have h2 := Bool.or_eq_false_iff.mp (h alt hmem)
        simp [h2.1]
      have hm2 : (if pw then none else alts.find? (fun alt =>
          prefixCI alt (c :: rest) &&
            proseTrailOk alt ((c :: rest).drop alt.length))) = none := by
        cases pw
        · exact hfind
        · rfl
      unfold proseSubGo
      rw [hm2]
      rw [ih (fun alt hmem => (Bool.or_eq_false_iff.mp (h alt hmem)).2) fuel (isWordChar c)]

theorem jsonAt_cons_ne {c : Char} {rest : List Char} (hc : c ≠ '{') :
    jsonAt (c :: rest) = none := by
  unfold jsonAt
  split
  · rename_i r1 heq
    injection heq with h1 _
    exact absurd h1 hc
  · rfl

theorem jsonSearchL_eq_none : ∀ {l : List Char}, '{' ∉ l → jsonSearchL l = none := by
  intro l
  induction l with
  | nil => intro _; rfl
  | cons c rest ih =>
    intro h
    have hc : c ≠ '{' := by
      intro he
      rw [he] at h
      exact h (List.mem_cons_self _ _)
    unfold jsonSearchL
    rw [jsonAt_cons_ne hc]
    exact ih (fun hm => h (List.mem_cons_of_mem c hm))

/-! ### Structure of the candidate match on a well-formed path -/

theorem takeWhile_eq_self_of_all {p : Char → Bool} :
    ∀ {s : List Char}, (∀ c ∈ s, p c = true) → s.takeWhile p = s := by
  intro s
  induction s with
  | nil => intro _; rfl
  | cons c cs ih =>
    intro h
    rw [List.takeWhile_cons_of_pos (h c (by simp)), ih (fun d hd => h d (by simp [hd]))]

theorem dropWhile_eq_nil_of_all' {p : Char → Bool} {s : List Char}
    (h : ∀ c ∈ s, p c = true) : s.dropWhile p = [] :=
  dropWhile_eq_nil_of_all (List.all_eq_true.mpr h)

theorem takeWhile_append_stop {p : Char → Bool} {d : Char} (hd : p d = false) :
    ∀ (s t : List Char), (∀ c ∈ s, p c = true) → (s ++ d :: t).takeWhile p = s := by
  intro s
  induction s with
  | nil =>
    intro t _
    simp only [List.nil_append]
    exact List.takeWhile_cons_of_neg (by simp [hd])
  | cons c cs ih =>
    intro t h
    rw [List.cons_append, List.takeWhile_cons_of_pos (h c (by simp)),
      ih t (fun e he => h e (by simp [he]))]

theorem dropWhile_append_stop {p : Char → Bool} {d : Char} (hd : p d = false) :
    ∀ (s t : List Char), (∀ c ∈ s, p c = true) → (s ++ d :: t).dropWhile p = d :: t := by
  intro s
  induction s with
  | nil =>
    intro t _
    simp only [List.nil_append]
    exact List.dropWhile_cons_of_neg (by simp [hd])
  | cons c cs ih =>
    intro t h
    rw [List.cons_append, List.dropWhile_cons_of_pos (h c (by simp)),
      ih t (fun e he => h e (by simp [he]))]

theorem mem_of_head_opt {α : Type} {l : List α} {a : α} (h : l.head? = some a) :
    a ∈ l := by
  cases l with
  | nil => cases h
  | cons b t =>
    have h2 : b = a := by simpa using h
    rw [← h2]
    exact List.mem_cons_self b t

theorem mem_of_getLast_opt {α : Type} : ∀ {l : List α} {a : α},
    l.getLast? = some a → a ∈ l := by
  intro l
  induction l with
  | nil => intro a h; cases h
  | cons b t ih =>
    intro a h
    cases t with
    | nil =>
      have h2 : b = a := by simpa using h
      rw [← h2]
      exact List.mem_cons_self b []
    | cons c u =>
      rw [List.getLast?_cons_cons] at h
      exact List.mem_cons_of_mem b (ih h)

/-- Splitting on the separator and joining back with it is the identity. -/
theorem joinSlash_splitCh (l : List Char) : joinSlash (splitCh '/' l) = l := by
  induction l with
  | nil => rfl
  | cons c rest ih =>
    by_cases hc : c = '/'
    · subst hc
      rw [splitCh_cons_sep]
      rcases hsp : splitCh '/' rest with _ | ⟨s, ss⟩
      · exact absurd hsp (splitCh_ne_nil _ _)
      · rw [joinSlash_cons [] (s :: ss) (by simp), List.nil_append, ← hsp, ih]
    · rw [splitCh_cons_ne _ _ _ hc]
      rcases hsp : splitCh '/' rest with _ | ⟨s, ss⟩
      · exact absurd hsp (splitCh_ne_nil _ _)
      · rw [hsp] at ih
        cases ss with
        | nil =>
          show joinSlash [c :: s] = c :: rest
          have h2 : s = rest := ih
          rw [show joinSlash [c :: s] = c :: s from rfl, h2]
        | cons t ts =>
          show joinSlash ((c :: s) :: t :: ts) = c :: rest
          rw [joinSlash_cons (c :: s) (t :: ts) (by simp)]
          rw [joinSlash_cons s (t :: ts) (by simp)] at ih
          rw [← ih]
          rfl

theorem munchGroups_nil (n : Nat) (acc : List Char) :
    munchGroups n acc [] = (acc, []) := by
  cases n <;> rfl

theorem munchGroups_cons_sep {n : Nat} {acc rest : List Char}
    (hne : rest.takeWhile isPathChar ≠ []) :
    munchGroups (n + 1) acc ('/' :: rest) =
      munchGroups n (acc ++ '/' :: rest.takeWhile isPathChar)
        (rest.dropWhile isPathChar) := by
  simp only [munchGroups]
  rw [if_pos ⟨by trivial, by simpa using hne⟩]

theorem munchCand_one {s : List Char} (hs : ∀ c ∈ s, isPathChar c = true) :
    munchCand s = (s, []) := by
  unfold munchCand
  rw [takeWhile_eq_self_of_all hs, dropWhile_eq_nil_of_all' hs, munchGroups_nil]

theorem munchCand_two {s t : List Char} (hs : ∀ c ∈ s, isPathChar c = true)
    (ht : ∀ c ∈ t, isPathChar c = true) (htne : t ≠ []) :
    munchCand (s ++ '/' :: t) = (s ++ '/' :: t, []) := by
  unfold munchCand
  rw [takeWhile_append_stop (by decide) s t hs, dropWhile_append_stop (by decide) s t hs]
  rw [munchGroups_cons_sep (by rw [takeWhile_eq_self_of_all ht]; exact htne)]
  rw [takeWhile_eq_self_of_all ht, dropWhile_eq_nil_of_all' ht, munchGroups_nil]

theorem munchCand_three {s t u : List Char} (hs : ∀ c ∈ s, isPathChar c = true)
    (ht : ∀ c ∈ t, isPathChar c = true) (hu : ∀ c ∈ u, isPathChar c = true)
    (htne : t ≠ []) (hune : u ≠ []) :
    munchCand (s ++ '/' :: (t ++ '/' :: u)) = (s ++ '/' :: (t ++ '/' :: u), []) := by
  unfold munchCand
  rw [takeWhile_append_stop (by decide) s (t ++ '/' :: u) hs,
    dropWhile_append_stop (by decide) s (t ++ '/' :: u) hs]
  rw [munchGroups_cons_sep (by
    rw [takeWhile_append_stop (by decide) t u ht]; exact htne)]
  rw [takeWhile_append_stop (by decide) t u ht, dropWhile_append_stop (by decide) t u ht]
  rw [munchGroups_cons_sep (by rw [takeWhile_eq_self_of_all hu]; exact hune)]
  rw [takeWhile_eq_self_of_all hu, dropWhile_eq_nil_of_all' hu, munchGroups_nil]
  simp

theorem findall1Go_nil (fuel : Nat) : findall1Go fuel [] = [] := by
  cases fuel <;> rfl

/-- On a text that is itself one full candidate match, `findall` returns
just that match. -/
theorem findall1_single {l : List Char} (hne : l ≠ []) (hmc : munchCand l = (l, []))
    (hheadp : ∀ c, l.head? = some c → isPathChar c = true) :
    findall1 l = [l] := by
  cases l with
  | nil => exact absurd rfl hne
  | cons c rest =>
    unfold findall1
    simp only [List.length_cons]
    unfold findall1Go
    rw [if_pos (hheadp c rfl), hmc]
    simp [findall1Go_nil]

/-! ### The collapses are the identity without adjacent pairs -/

theorem noAdjPair_of_all_not {p : Char → Bool} :
    ∀ {l : List Char}, (∀ c ∈ l, p c = false) → noAdjPair p l = true := by
  intro l
  induction l with
  | nil => intro _; rfl
  | cons c tail ih =>
    intro h
    cases tail with
    | nil => rfl
    | cons d rest =>
      show (!(p c && p d) && noAdjPair p (d :: rest)) = true
      rw [h c (by simp), ih (fun e he => h e (by simp [he]))]
      rfl

theorem noAdjPair_append {p : Char → Bool} :
    ∀ (s t : List Char), noAdjPair p s = true → noAdjPair p t = true →
      (∀ a b, s.getLast? = some a → t.head? = some b → (p a && p b) = false) →
      noAdjPair p (s ++ t) = true := by
  intro s
  induction s with
  | nil => intro t _ ht _; simpa using ht
  | cons c cs ih =>
    intro t hs ht hedge
    cases cs with
    | nil =>
      cases t with
      | nil => rfl
      | cons d u =>
        show (!(p c && p d) && noAdjPair p (d :: u)) = true
        rw [hedge c d (by simp) rfl, ht]
        rfl
    | cons c2 cs2 =>
      have hs2 : (!(p c && p c2) && noAdjPair p (c2 :: cs2)) = true := hs
      rw [Bool.and_eq_true] at hs2
      show (!(p c && p c2) && noAdjPair p ((c2 :: cs2) ++ t)) = true
      rw [hs2.1, ih t hs2.2 ht (fun a b ha hb =>
        hedge a b (by rw [List.getLast?_cons_cons]; exact ha) hb)]
      rfl

theorem collapseWsGo_eq_self :
    ∀ (l : List Char), noAdjPair pyWs l = true → ∀ fuel, collapseWsGo fuel l = l := by
  intro l
  induction l with
  | nil => intro _ fuel; cases fuel <;> rfl
  | cons c tail ih =>
    intro h fuel
    cases fuel with
    | zero => rfl
    | succ fuel =>
      cases tail with
      | nil => rfl
      | cons d rest =>
        have h2 : (!(pyWs c && pyWs d) && noAdjPair pyWs (d :: rest)) = true := h
        rw [Bool.and_eq_true] at h2
        have hcond : ¬(pyWs c = true ∧ pyWs d = true) := by
          intro hx
          have h3 := h2.1
          rw [Bool.not_eq_true', hx.1, hx.2] at h3
          simp at h3
        unfold collapseWsGo
        rw [if_neg hcond, ih h2.2 fuel]

theorem collapseWsL_eq_self {l : List Char} (h : noAdjPair pyWs l = true) :
    collapseWsL l = l :=
  collapseWsGo_eq_self l h _

theorem collapseSlashGo_eq_self :
    ∀ (l : List Char), noAdjPair (fun c => c == '/') l = true →
      ∀ fuel, collapseSlashGo fuel l = l := by
  intro l
  induction l with
  | nil => intro _ fuel; cases fuel <;> rfl
  | cons c tail ih =>
    intro h fuel
    cases fuel with
    | zero => rfl
    | succ fuel =>
      cases tail with
      | nil => rfl
      | cons d rest =>
        have h2 : (!((c == '/') && (d == '/')) &&
            noAdjPair (fun c => c == '/') (d :: rest)) = true := h
        rw [Bool.and_eq_true] at h2
        have hcond : ¬(c = '/' ∧ d = '/') := by
          intro hx
          have h3 := h2.1
          rw [Bool.not_eq_true', hx.1, hx.2] at h3
          simp at h3
        unfold collapseSlashGo
        rw [if_neg hcond, ih h2.2 fuel]

theorem collapseSlashL_eq_self {l : List Char}
    (h : noAdjPair (fun c => c == '/') l = true) : collapseSlashL l = l :=
  collapseSlashGo_eq_self l h _

/-- `pickBestCand` on a single candidate, written out. -/
theorem pickBestCand_singleton (x : List Char) :
    pickBestCand [x] =
      joinSlash ((((splitCh '/'
        (collapseSlashL (collapseWsL (stripCharsL "./ ".toList (pyStripL x))))).map
          pyStripL).filter (· ≠ [])).take 3) := rfl

/-! ### The line splitter and the character replacements are the identity -/

theorem normCRLF_eq_self : ∀ {l : List Char}, (∀ c ∈ l, c ≠ '\r') → normCRLF l = l := by
  intro l
  induction l with
  | nil => intro _; rfl
  | cons c rest ih =>
    intro h
    have hc : c ≠ '\r' := h c (by simp)
    unfold normCRLF
    split
    · rename_i heq
      exact absurd heq (by simp)
    · rename_i r heq
      injection heq with h1 h2
      exact absurd h1 hc
    · rename_i c2 r heq
      injection heq with h1 h2
      subst h1
      subst h2
      rw [ih (fun d hd => h d (by simp [hd]))]

theorem splitLinesGo_nobrk : ∀ {l : List Char} (acc : List Char),
    (∀ c ∈ l, isLineBrk c = false) → splitLinesGo acc l = [acc.reverse ++ l] := by
  intro l
  induction l with
  | nil => intro acc _; simp [splitLinesGo]
  | cons c rest ih =>
    intro acc h
    unfold splitLinesGo
    rw [if_neg (by simp [h c (by simp)])]
    rw [ih (c :: acc) (fun d hd => h d (by simp [hd]))]
    simp

theorem splitLinesL_nobrk {l : List Char} (hne : l ≠ [])
    (h : ∀ c ∈ l, isLineBrk c = false) : splitLinesL l = [l] := by
  unfold splitLinesL
  rw [if_neg (by simpa using hne)]
  rw [normCRLF_eq_self (fun c hc => by
    intro he
    subst he
    exact absurd (h _ hc) (by decide))]
  rw [splitLinesGo_nobrk [] h]
  simp

theorem replaceBsL_eq_self {l : List Char} (h : ∀ c ∈ l, c ≠ '\\') :
    replaceBsL l = l := by
  unfold replaceBsL
  have h2 : l.map (fun c => if c = '\\' then '/' else c) = l.map id :=
    List.map_congr_left (fun c hc => if_neg (h c hc))
  rw [h2, List.map_id]

theorem filter_eq_self_of_all {α : Type} {p : α → Bool} :
    ∀ {l : List α}, (∀ a ∈ l, p a = true) → l.filter p = l := by
  intro l
  induction l with
  | nil => intro _; rfl
  | cons a as ih =>
    intro h
    rw [List.filter_cons, if_pos (h a (by simp)), ih (fun b hb => h b (by simp [hb]))]

/-! ### Unpacking well-formedness -/

theorem wfseg_unpack {s : List Char} (h : WFseg s = true) :
    s ≠ [] ∧ (∀ c ∈ s, isPathChar c = true) ∧
    (∀ c, s.head? = some c → pyWs c = false) ∧
    (∀ c, s.getLast? = some c → pyWs c = false) := by
  unfold WFseg at h
  simp only [Bool.and_eq_true] at h
  obtain ⟨⟨⟨h1, h2⟩, h3⟩, h4⟩ := h
  refine ⟨?_, ?_, ?_, ?_⟩
  · intro he
    rw [he] at h1
    simp at h1
  · intro c hc
    exact List.all_eq_true.mp h2 c hc
  · intro c hc
    rw [hc] at h3
    simpa using h3
  · intro c hc
    rw [hc] at h4
    simpa using h4

theorem wf_unpack {l : List Char} (h : WFPathL l = true) :
    (splitCh '/' l).length ≤ 3 ∧ (∀ s ∈ splitCh '/' l, WFseg s = true) ∧
    (∀ c, l.head? = some c → c ≠ '.') ∧ l ≠ [] ∧
    (∀ c, l.getLast? = some c → c ≠ '.') ∧
    noAdjPair pyWs l = true ∧
    (2 ≤ (splitCh '/' l).length ∨ (wordsL l).length ≤ 4) ∧
    occursCI "the cleaned compact path would be".toList l = false ∧
    occursCI "the path would be".toList l = false ∧
    occursCI "the best path is".toList l = false := by
  unfold WFPathL at h
  simp only [Bool.and_eq_true] at h
  obtain ⟨⟨⟨⟨⟨⟨⟨⟨⟨h1, h2⟩, h3⟩, h4⟩, h5⟩, h6⟩, h7⟩, h8⟩, h9⟩, h10⟩ := h
  refine ⟨of_decide_eq_true h1, fun s hs => List.all_eq_true.mp h2 s hs, ?_, ?_, ?_,
    h6, ?_, ?_, ?_, ?_⟩
  · intro c hc
    rw [hc] at h3
    simpa using h3
  · intro he
    rw [he] at h4
    simp at h4
  · intro c hc
    rw [hc] at h5
    simpa using h5
  · rw [Bool.or_eq_true] at h7
    rcases h7 with h7 | h7
    · exact Or.inl (of_decide_eq_true h7)
    · exact Or.inr (of_decide_eq_true h7)
  · rw [Bool.not_eq_true'] at h8
    exact h8
  · rw [Bool.not_eq_true'] at h9
    exact h9
  · rw [Bool.not_eq_true'] at h10
    exact h10

/-! ### The sanitizer pipeline is the identity on well-formed paths -/

/-- Core of the idempotence argument: on a list satisfying all the
structural facts a well-formed path provides, the full `_sanitize_path`
pipeline (parse, strip, collapse, split, cap, rejoin) returns the input
unchanged. -/
theorem sanitize_core {l : List Char} (segs : List (List Char))
    (hsegs : splitCh '/' l = segs)
    (hne : l ≠ [])
    (htext : ∀ c ∈ l, isTextChar c = true)
    (hp1 : occursCI "the cleaned compact path would be".toList l = false)
    (hp2 : occursCI "the path would be".toList l = false)
    (hp3 : occursCI "the best path is".toList l = false)
    (hmc : munchCand l = (l, []))
    (hheadp : ∀ c, l.head? = some c → isPathChar c = true)
    (hlastp : ∀ c, l.getLast? = some c → isPathChar c = true)
    (hheadw : ∀ c, l.head? = some c → pyWs c = false)
    (hlastw : ∀ c, l.getLast? = some c → pyWs c = false)
    (hheadd : ∀ c, l.head? = some c → c ≠ '.')
    (hlastd : ∀ c, l.getLast? = some c → c ≠ '.')
    (hfiltc : (l.contains '/' || decide ((wordsL l).length ≤ 4)) = true)
    (hws : noAdjPair pyWs l = true)
    (hsl : noAdjPair (fun c => c == '/') l = true)
    (hsegsGood : ∀ s ∈ segs, s ≠ [] ∧ pyStripL s = s)
    (hlen3 : segs.length ≤ 3)
    (hjoin : joinSlash segs = l) :
    sanitizeL l = some l := by
  have hstrip : pyStripL l = l := stripBy_eq_self hheadw hlastw
  have hstrip2 : stripCharsL "./ ".toList l = l := by
    unfold stripCharsL
    apply stripBy_eq_self
    · intro c hc
      exact contains_false_of_not_mem
        (notin_dotslashspace (hheadp c hc) (hheadw c hc) (hheadd c hc))
    · intro c hc
      exact contains_false_of_not_mem
        (notin_dotslashspace (hlastp c hc) (hlastw c hc) (hlastd c hc))
  have hext : extractTextL l = l := by
    have hjson : jsonSearchL l = none :=
      jsonSearchL_eq_none (fun hm => absurd (htext _ hm) (by decide))
    have hfence : fenceSubL l = l := fenceSubL_eq_self (by
      rw [show "```".toList = '`' :: ['`', '`'] from rfl]
      exact splitOnceSub_eq_none_of_notMem (fun hm => absurd (htext _ hm) (by decide)))
    have hthink : thinkSubL l = l := thinkSubL_eq_self
      (splitOnceSubCI_eq_none (by decide)
        (occursCI_false_of_badchar '<' (by decide) (by decide) (by decide)
          (by decide) l htext))
    have hheading : headingSubL l = l :=
      headingSubGo_eq_self l (fun c hc => text_ne (htext c hc) (by decide)) _ _
    have hprose : proseSubL proseAlts1 l = l := by
      unfold proseSubL
      apply proseSubGo_eq_self
      intro alt hmem
      simp only [proseAlts1, List.map_cons, List.map_nil, List.mem_cons,
        List.not_mem_nil, or_false] at hmem
      rcases hmem with rfl | rfl | rfl | rfl
      · exact hp1
      · exact hp2
      · exact hp3
      · exact occursCI_false_of_badchar ':' (by decide) (by decide) (by decide)
          (by decide) l htext
    simp only [extractTextL]
    rw [if_neg (by simpa using hne), hjson]
    show pickBestCand (((findall1
        (proseSubL proseAlts1 (headingSubL (thinkSubL (fenceSubL l))))).filter
      (fun c => c.contains '/' || decide ((wordsL c).length ≤ 4))).map pyStripL) = l
    rw [hfence, hthink, hheading, hprose]
    rw [findall1_single hne hmc hheadp]
    rw [show [l].filter
        (fun c => c.contains '/' || decide ((wordsL c).length ≤ 4)) = [l] by
      rw [List.filter_cons, if_pos hfiltc]; rfl]
    rw [List.map_cons, List.map_nil, hstrip]
    rw [pickBestCand_singleton]
    rw [hstrip, hstrip2, collapseWsL_eq_self hws, collapseSlashL_eq_self hsl, hsegs]
    have hmap : segs.map pyStripL = segs := by
      have h2 : segs.map pyStripL = segs.map id :=
        List.map_congr_left (fun s hs => (hsegsGood s hs).2)
      rw [h2, List.map_id]
    rw [hmap]
    rw [filter_eq_self_of_all (fun s hs => by simp [(hsegsGood s hs).1])]
    rw [List.take_of_length_le hlen3]
    exact hjoin
  have htail : sanitizeTail l = l := by
    simp only [sanitizeTail]
    rw [dropWhile_eq_self_of_head (fun c hc => by
      have hp := hheadp c hc
      simp only [decide_eq_false_iff_not]
      intro he
      rw [he] at hp
      exact absurd hp (by decide))]
    rw [hstrip]
    rw [filter_eq_self_of_all (fun c hc => by
      rw [invalid_false_of_text (htext c hc)]
      rfl)]
    rw [if_neg (by simpa using hne)]
    have hpNS : partsNS l = segs := by
      unfold partsNS
      rw [hsegs]
      exact filter_eq_self_of_all (fun s hs => by simp [(hsegsGood s hs).1])
    rw [hpNS, List.take_of_length_le hlen3]
    exact hjoin
  simp only [sanitizeL]
  rw [hext, ite_self]
  rw [hstrip, replaceBsL_eq_self (fun c hc => text_ne (htext c hc) (by decide)),
    splitLinesL_nobrk hne (fun c hc => linebrk_false_of_text (htext c hc))]
  show some (sanitizeTail l) = some l
  rw [htail]

/-- Every well-formed path is a fixed point of the sanitizer. -/
theorem sanitizeL_fixed {l : List Char} (h : WFPathL l = true) : sanitizeL l = some l := by
  obtain ⟨h1, h2, h3, h4, h5, h6, h7, h8, h9, h10⟩ := wf_unpack h
  rcases hsegs : splitCh '/' l with _ | ⟨s1, _ | ⟨s2, _ | ⟨s3, _ | ⟨s4, tl⟩⟩⟩⟩
  · exact absurd hsegs (splitCh_ne_nil '/' l)
  · -- one segment
    obtain ⟨hs1ne, hs1p, hs1hw, hs1lw⟩ := wfseg_unpack (h2 s1 (by rw [hsegs]; simp))
    have hjoin0 : joinSlash [s1] = l := by
      have hj := joinSlash_splitCh l
      rw [hsegs] at hj
      exact hj
    have hl : s1 = l := hjoin0
    subst hl
    refine sanitize_core [s1] hsegs hs1ne (fun c hc => text_of_path (hs1p c hc))
      h8 h9 h10 (munchCand_one hs1p)
      (fun c hc => hs1p c (mem_of_head_opt hc))
      (fun c hc => hs1p c (mem_of_getLast_opt hc))
      hs1hw hs1lw h3 h5 ?_ h6
      (noAdjPair_of_all_not (fun c hc => slash_beq_false_of_path (hs1p c hc)))
      ?_ (by simp) hjoin0
    · rw [hsegs] at h7
      rcases h7 with h7 | h7
      · simp at h7
      · simp [h7]
    · intro s hs
      have h2s : s = s1 := by simpa using hs
      subst h2s
      exact ⟨hs1ne, stripBy_eq_self hs1hw hs1lw⟩
  · -- two segments
    obtain ⟨hs1ne, hs1p, hs1hw, hs1lw⟩ := wfseg_unpack (h2 s1 (by rw [hsegs]; simp))
    obtain ⟨hs2ne, hs2p, hs2hw, hs2lw⟩ := wfseg_unpack (h2 s2 (by rw [hsegs]; simp))
    have hjoin0 : joinSlash [s1, s2] = l := by
      have hj := joinSlash_splitCh l
      rw [hsegs] at hj
      exact hj
    have hl : s1 ++ '/' :: s2 = l := hjoin0
    subst hl
    have hhead_eq : (s1 ++ '/' :: s2).head? = s1.head? :=
      List.head?_append_of_ne_nil _ hs1ne
    have hlast_eq : (s1 ++ '/' :: s2).getLast? = s2.getLast? := by
      rw [List.getLast?_append_of_ne_nil s1 (show ('/' :: s2 : List Char) ≠ [] by simp)]
      rw [show ('/' :: s2 : List Char) = ['/'] ++ s2 from rfl]
      rw [List.getLast?_append_of_ne_nil ['/'] hs2ne]
    have htext : ∀ c ∈ s1 ++ '/' :: s2, isTextChar c = true := by
      intro c hc
      rcases List.mem_append.mp hc with hc | hc
      · exact text_of_path (hs1p c hc)
      · rcases List.mem_cons.mp hc with rfl | hc
        · rfl
        · exact text_of_path (hs2p c hc)
    have hslash1 : ∀ c ∈ s1, (c == '/') = false :=
      fun c hc => slash_beq_false_of_path (hs1p c hc)
    have hslash2 : ∀ c ∈ s2, (c == '/') = false :=
      fun c hc => slash_beq_false_of_path (hs2p c hc)
    have hsl : noAdjPair (fun c => c == '/') (s1 ++ '/' :: s2) = true := by
      apply noAdjPair_append s1 ('/' :: s2) (noAdjPair_of_all_not hslash1)
      · apply noAdjPair_append ['/'] s2 rfl (noAdjPair_of_all_not hslash2)
        intro a b ha hb
        rw [hslash2 b (mem_of_head_opt hb), Bool.and_false]
      · intro a b ha hb
        rw [hslash1 a (mem_of_getLast_opt ha), Bool.false_and]
    have hfiltc : ((s1 ++ '/' :: s2).contains '/' ||
        decide ((wordsL (s1 ++ '/' :: s2)).length ≤ 4)) = true := by
      have hm : '/' ∈ s1 ++ '/' :: s2 :=
        List.mem_append_right s1 (List.mem_cons_self '/' s2)
      have h2c : (s1 ++ '/' :: s2).contains '/' = true := List.elem_eq_true_of_mem hm
      rw [h2c, Bool.true_or]
    refine sanitize_core [s1, s2] hsegs (by simp) htext h8 h9 h10
      (munchCand_two hs1p hs2p hs2ne)
      (fun c hc => hs1p c (mem_of_head_opt (by rw [hhead_eq] at hc; exact hc)))
      (fun c hc => hs2p c (mem_of_getLast_opt (by rw [hlast_eq] at hc; exact hc)))
      (fun c hc => hs1hw c (by rw [hhead_eq] at hc; exact hc))
      (fun c hc => hs2lw c (by rw [hlast_eq] at hc; exact hc))
      h3 h5 hfiltc h6 hsl ?_ (by simp) hjoin0
    intro s hs
    have h2s : s = s1 ∨ s = s2 := by simpa using hs
    rcases h2s with rfl | rfl
    · exact ⟨hs1ne, stripBy_eq_self hs1hw hs1lw⟩
    · exact ⟨hs2ne, stripBy_eq_self hs2hw hs2lw⟩
  · -- three segments
    obtain ⟨hs1ne, hs1p, hs1hw, hs1lw⟩ := wfseg_unpack (h2 s1 (by rw [hsegs]; simp))
    obtain ⟨hs2ne, hs2p, hs2hw, hs2lw⟩ := wfseg_unpack (h2 s2 (by rw [hsegs]; simp))
    obtain ⟨hs3ne, hs3p, hs3hw, hs3lw⟩ := wfseg_unpack (h2 s3 (by rw [hsegs]; simp))
    have hjoin0 : joinSlash [s1, s2, s3] = l := by
      have hj := joinSlash_splitCh l
      rw [hsegs] at hj
      exact hj
    have hl : s1 ++ '/' :: (s2 ++ '/' :: s3) = l := hjoin0
    subst hl
    have hhead_eq : (s1 ++ '/' :: (s2 ++ '/' :: s3)).head? = s1.head? :=
      List.head?_append_of_ne_nil _ hs1ne
    have hlast_eq : (s1 ++ '/' :: (s2 ++ '/' :: s3)).getLast? = s3.getLast? := by
      rw [List.getLast?_append_of_ne_nil s1
        (show ('/' :: (s2 ++ '/' :: s3) : List Char) ≠ [] by simp)]
      rw [show ('/' :: (s2 ++ '/' :: s3) : List Char) = ['/'] ++ (s2 ++ '/' :: s3) from rfl]
      rw [List.getLast?_append_of_ne_nil ['/'] (show (s2 ++ '/' :: s3 : List Char) ≠ [] by simp)]
      rw [List.getLast?_append_of_ne_nil s2 (show ('/' :: s3 : List Char) ≠ [] by simp)]
      rw [show ('/' :: s3 : List Char) = ['/'] ++ s3 from rfl]
      rw [List.getLast?_append_of_ne_nil ['/'] hs3ne]
    have htext : ∀ c ∈ s1 ++ '/' :: (s2 ++ '/' :: s3), isTextChar c = true := by
      intro c hc
      rcases List.mem_append.mp hc with hc | hc
      · exact text_of_path (hs1p c hc)
      · rcases List.mem_cons.mp hc with rfl | hc
        · rfl
        · rcases List.mem_append.mp hc with hc | hc
          · exact text_of_path (hs2p c hc)
          · rcases List.mem_cons.mp hc with rfl | hc
            · rfl
            · exact text_of_path (hs3p c hc)
    have hslash1 : ∀ c ∈ s1, (c == '/') = false :=
      fun c hc => slash_beq_false_of_path (hs1p c hc)
    have hslash2 : ∀ c ∈ s2, (c == '/') = false :=
      fun c hc => slash_beq_false_of_path (hs2p c hc)
    have hslash3 : ∀ c ∈ s3, (c == '/') = false :=
      fun c hc => slash_beq_false_of_path (hs3p c hc)
    have hsl : noAdjPair (fun c => c == '/') (s1 ++ '/' :: (s2 ++ '/' :: s3)) = true := by
      apply noAdjPair_append s1 ('/' :: (s2 ++ '/' :: s3)) (noAdjPair_of_all_not hslash1)
      · apply noAdjPair_append ['/'] (s2 ++ '/' :: s3) rfl
        · apply noAdjPair_append s2 ('/' :: s3) (noAdjPair_of_all_not hslash2)
          · apply noAdjPair_append ['/'] s3 rfl (noAdjPair_of_all_not hslash3)
            intro a b ha hb
            rw [hslash3 b (mem_of_head_opt hb), Bool.and_false]
          · intro a b ha hb
            rw [hslash2 a (mem_of_getLast_opt ha), Bool.false_and]
        · intro a b ha hb
          have hb2 : s2.head? = some b := by
            rw [List.head?_append_of_ne_nil _ hs2ne] at hb
            exact hb
          rw [hslash2 b (mem_of_head_opt hb2), Bool.and_false]
      · intro a b ha hb
        rw [hslash1 a (mem_of_getLast_opt ha), Bool.false_and]
    have hfiltc : ((s1 ++ '/' :: (s2 ++ '/' :: s3)).contains '/' ||
        decide ((wordsL (s1 ++ '/' :: (s2 ++ '/' :: s3))).length ≤ 4)) = true := by
      have hm : '/' ∈ s1 ++ '/' :: (s2 ++ '/' :: s3) :=
        List.mem_append_right s1 (List.mem_cons_self '/' _)
      have h2c : (s1 ++ '/' :: (s2 ++ '/' :: s3)).contains '/' = true :=
        List.elem_eq_true_of_mem hm
      rw [h2c, Bool.true_or]
    refine sanitize_core [s1, s2, s3] hsegs (by simp) htext h8 h9 h10
      (munchCand_three hs1p hs2p hs3p hs2ne hs3ne)
      (fun c hc => hs1p c (mem_of_head_opt (by rw [hhead_eq] at hc; exact hc)))
      (fun c hc => hs3p c (mem_of_getLast_opt (by rw [hlast_eq] at hc; exact hc)))
      (fun c hc => hs1hw c (by rw [hhead_eq] at hc; exact hc))
      (fun c hc => hs3lw c (by rw [hlast_eq] at hc; exact hc))
      h3 h5 hfiltc h6 hsl ?_ (by simp) hjoin0
    intro s hs
    have h2s : s = s1 ∨ s = s2 ∨ s = s3 := by simpa using hs
    rcases h2s with rfl | rfl | rfl
    · exact ⟨hs1ne, stripBy_eq_self hs1hw hs1lw⟩
    · exact ⟨hs2ne, stripBy_eq_self hs2hw hs2lw⟩
    · exact ⟨hs3ne, stripBy_eq_self hs3hw hs3lw⟩
  · -- four or more segments: contradicts the length bound
    rw [hsegs] at h1
    simp only [List.length_cons] at h1
    omega

/-! ## The claims -/

/-- Claim C1 (code_bug): with pinning enabled, a file matching the pinned
set is sent to `root/infrastructure/terraform` for any oracle text whose
whitespace-trim is nonempty, and no later rule runs; but on the empty (or
whitespace-only) oracle text the sanitizer raises `IndexError`
(`"".splitlines()[0]`) before the pin check, so no path is returned at
all — refuting "any oracle text whatsoever". -/
theorem C1_pin_rule :
    apply_guardrails baseCtx "main.tf" "" = none ∧
    (∀ (ctx : GuardCtx) (fileName text : String),
      ctx.pinTerraform = true → isPinnedName fileName = true →
      RootOk ctx.rootName → pyStrip text ≠ "" →
      apply_guardrails ctx fileName text
        = some (ctx.rootName ++ "/infrastructure/terraform")) := by
  constructor
  · decide
  · intro ctx fileName text hpin hpinned hroot hstrip
    have hsome : (sanitizeL text.toList).isSome := by
      apply sanitizeL_isSome
      intro hc
      apply hstrip
      unfold pyStrip
      rw [hc]
      rfl
    obtain ⟨rel, hrel⟩ := Option.isSome_iff_exists.mp hsome
    unfold apply_guardrails sanitize_path
    rw [hrel, Option.map_some', Option.map_some']
    rw [if_pos (by rw [hpin, hpinned]; rfl)]
    rw [joinPath_eq hroot.1 hroot.2.1 (by decide), String.append_assoc]
    rfl

/-- Witness for C1's universally quantified part at a concrete pinned file
and concrete garbage text. -/
theorem C1_pin_rule_witness :
    apply_guardrails baseCtx "main.tf" "garbage !!" = some "Root/infrastructure/terraform" :=
  C1_pin_rule.2 baseCtx "main.tf" "garbage !!" rfl (by decide)
    ⟨by decide, by decide, by decide⟩ (by decide)

/-- Counterexample to claim C2 as stated: with stay-under-root enabled, a
cache hit surfaces the stored path verbatim, so the final path returned to
the caller can fail the root-containment invariant. -/
theorem C2_counterexample :
    baseCtx.stayUnderRoot = true ∧
    process_file_two_pass baseCtx [("s1", ⟨some "Elsewhere/x"⟩)] false false
      "notes.txt" "s1" "w" (fun _ => "t") = some ("Elsewhere/x", "Cached") ∧
    starts_with_root baseCtx.rootName "Elsewhere/x" = false := by
  refine ⟨rfl, ?_, by decide⟩
  rfl

/-- Claim C2, amended: with stay-under-root enabled, every path produced
by the guardrail pipeline (i.e. by a fresh oracle pass) has a first
segment that case-insensitively equals the configured root name; the
error-fallback path and cache-hit paths are returned verbatim and are not
covered. -/
theorem C2_root_containment (ctx : GuardCtx) (fileName text r : String)
    (hstay : ctx.stayUnderRoot = true) (hroot : RootOk ctx.rootName)
    (h : apply_guardrails ctx fileName text = some r) :
    starts_with_root ctx.rootName r = true := by
  unfold apply_guardrails at h
  cases hsan : sanitize_path text with
  | none => rw [hsan] at h; cases h
  | some rel =>
    rw [hsan, Option.map_some'] at h
    injection h with h
    subst h
    by_cases hpin : (ctx.pinTerraform && isPinnedName fileName) = true
    · rw [if_pos hpin]
      rw [joinPath_eq hroot.1 hroot.2.1 (by decide)]
      exact starts_with_root_of_parts (partsOf_append_root _ _ hroot)
    · rw [if_neg hpin]
      apply starts_snap ctx _ hroot
      by_cases hsw : (ctx.stayUnderRoot && !starts_with_root ctx.rootName rel) = true
      · rw [if_pos hsw]
        by_cases hrel : rel = ""
        · subst hrel
          rw [joinPath_empty_right hroot.1, partsOf_root_single _ hroot]
          simp
        · rw [joinPath_eq hroot.1 hroot.2.1 hrel, partsOf_append_root _ _ hroot]
          simp
      · rw [if_neg hsw]
        have hstarts : starts_with_root ctx.rootName rel = true := by
          cases hb : starts_with_root ctx.rootName rel
          · exact absurd (by rw [hstay, hb]; rfl) hsw
          · rfl
        exact partsOf_ne_of_starts hstarts

/-- Witness for C2's amended theorem at a concrete fresh pass. -/
theorem C2_root_containment_witness :
    starts_with_root baseCtx.rootName "Root/a/b/c" = true :=
  C2_root_containment baseCtx "notes.txt" "a/b/c" "Root/a/b/c" rfl
    ⟨by decide, by decide, by decide⟩ (by decide)

/-- Counterexample to claim C3 as stated: with stay-under-root enabled,
root containment prepends a fourth segment and no 3-segment cap is
re-applied, so the guardrail pipeline emits a 4-segment path. -/
theorem C3_counterexample :
    apply_guardrails baseCtx "notes.txt" "a/b/c" = some "Root/a/b/c" ∧
    (partsOf "Root/a/b/c").length = 4 := by
  constructor
  · decide
  · decide

/-- Claim C3, amended: the sanitizer's output always has at most 3
segments, and the guardrail pipeline's output has at most 4 (the
root-containment prepend is not followed by a re-cap). -/
theorem C3_segment_caps :
    (∀ x t : String, sanitize_path x = some t → (partsOf t).length ≤ 3) ∧
    (∀ (ctx : GuardCtx) (fileName text r : String), RootOk ctx.rootName →
      ChildrenOk ctx → apply_guardrails ctx fileName text = some r →
      (partsOf r).length ≤ 4) := by
  constructor
  · exact fun x t h => sanitize_parts_le3 h
  · intro ctx fileName text r hroot hch h
    unfold apply_guardrails at h
    cases hsan : sanitize_path text with
    | none => rw [hsan] at h; cases h
    | some rel =>
      rw [hsan, Option.map_some'] at h
      injection h with h
      subst h
      have hrel3 : (partsOf rel).length ≤ 3 := sanitize_parts_le3 hsan
      by_cases hpin : (ctx.pinTerraform && isPinnedName fileName) = true
      · rw [if_pos hpin, joinPath_eq hroot.1 hroot.2.1 (by decide),
          partsOf_append_root _ _ hroot]
        rw [show partsOf "infrastructure/terraform" = ["infrastructure", "terraform"]
          from by decide]
        simp
      · rw [if_neg hpin]
        by_cases hsw : (ctx.stayUnderRoot && !starts_with_root ctx.rootName rel) = true
        · rw [if_pos hsw]
          by_cases hrel : rel = ""
          · subst hrel
            rw [joinPath_empty_right hroot.1]
            have := snap_parts_le ctx hroot hch ctx.rootName 0 (by
              intro p rest hp
              rw [partsOf_root_single _ hroot] at hp
              injection hp with h1 h2
              subst h1
              rw [if_neg (by simp)]
              simp [← h2])
            rw [partsOf_root_single _ hroot] at this
            refine le_trans this ?_
            simp
          · rw [joinPath_eq hroot.1 hroot.2.1 hrel]
            have hparts := partsOf_append_root ctx.rootName rel hroot
            have := snap_parts_le ctx hroot hch (ctx.rootName ++ "/" ++ rel)
              (partsOf rel).length (by
              intro p rest hp
              rw [hparts] at hp
              injection hp with h1 h2
              subst h1
              rw [if_neg (by simp)]
              simp [← h2])
            rw [hparts] at this
            refine le_trans this ?_
            simp only [List.length_cons]
            omega
        · rw [if_neg hsw]
          have := snap_parts_le ctx hroot hch rel ((partsOf rel).length) (by
            intro p rest hp
            split
            · rw [hp]
            · rw [hp]; simp)
          refine le_trans this ?_
          simp only [max_le_iff]
          omega

/-- Witness for C3 (both halves at concrete inputs). -/
theorem C3_segment_caps_witness :
    (partsOf "a/b/c").length ≤ 3 ∧ (partsOf "Root/a/b/c").length ≤ 4 :=
  ⟨C3_segment_caps.1 "x/y/z" "x/y/z" (by decide),
   C3_segment_caps.2 baseCtx "notes.txt" "a/b/c" "Root/a/b/c"
    ⟨by decide, by decide, by decide⟩
    ⟨(by intro p cs hp; cases hp), (by intro p cs hp; cases hp)⟩
    (by decide)⟩

/-- Counterexample to claim C4 as stated: sanitization is not idempotent —
`sanitize("?/")` returns the empty string (the invalid-character deletion
leaves only a slash, whose segments all filter away), and re-sanitizing
the empty string raises `IndexError` instead of returning it. -/
theorem C4_counterexample :
    sanitize_path "?/" = some "" ∧ sanitize_path "" = none ∧
    sanitizeTwice "?/" = none ∧ sanitizeTwice "?/" ≠ sanitize_path "?/" := by
  refine ⟨by decide, by decide, by decide, by decide⟩

/-- Claim C4 (corrected, affirmative half): sanitization is idempotent on
well-formed paths — on any path of one to three nonempty whitespace-trimmed
segments over the path alphabet, single-spaced, with no leading or trailing
`'.'`, at most four words when single-segment, and free of the prose
lead-in phrases, `_sanitize_path` is the identity (so applying it twice
equals applying it once there).  `C4_counterexample` shows idempotence
fails in general. -/
theorem C4_idempotent_wellformed (e : String) (h : WellFormedPath e = true) :
    sanitize_path e = some e := by
  unfold sanitize_path
  rw [sanitizeL_fixed (show WFPathL e.toList = true from h)]
  simp [asString_data]

/-- Witness for `C4_idempotent_wellformed` at the concrete well-formed
path `"Docs/Reports"`. -/
theorem C4_idempotent_wellformed_witness :
    WellFormedPath "Docs/Reports" = true ∧
      sanitize_path "Docs/Reports" = some "Docs/Reports" :=
  ⟨by decide, C4_idempotent_wellformed "Docs/Reports" (by decide)⟩

/-- Counterexample to claim C5 as stated: the input `"unknown"` (whose
trimmed case-folded form is in the claimed marker set) is not mapped to
the sentinel by either sanitizer or by the response parser — the marker
list has only `error`, `none`, `null`, `undefined`. -/
theorem C5_counterexample :
    pyLower (pyStrip "unknown") = "unknown" ∧
    validate_folder_path "unknown" = "unknown" ∧
    sanitize_path "unknown" = some "unknown" ∧
    extract_path_from_response "unknown" = "unknown" := by
  refine ⟨by decide, by decide, by decide, by decide⟩

/-- Claim C5, amended: `validate_folder_path` returns the sentinel for
every input that is empty, whitespace-only, or whose case-folded form
(without trimming) is exactly one of `error`, `none`, `null`,
`undefined`; and the response parser maps `""` and
`"Error: connection failed"` to the sentinel. -/
theorem C5_sentinel :
    (∀ x : String,
      (x = "" ∨ (x ≠ "" ∧ x.toList.all pyWs) ∨
        pyLower x ∈ ["error", "none", "null", "undefined"]) →
      validate_folder_path x = "Uncategorized") ∧
    extract_path_from_response "" = "Uncategorized" ∧
    extract_path_from_response "Error: connection failed" = "Uncategorized" := by
  refine ⟨?_, by decide, by decide⟩
  intro x hx
  rcases hx with rfl | ⟨hne, hws⟩ | hmark
  · decide
  · by_cases hc : (x.toList.isEmpty || errorMarkers.contains (pyLowerL x.toList)) = true
    · unfold validate_folder_path validateL
      rw [if_pos hc]
      exact asString_toList _
    · have hstrip : pyStripL x.toList = [] := stripBy_nil_of_all hws
      unfold validate_folder_path validateL
      rw [if_neg hc]
      simp only [hstrip]
      decide
  · have hmem : errorMarkers.contains (pyLowerL x.toList) = true := by
      have hcases : pyLower x = "error" ∨ pyLower x = "none" ∨
          pyLower x = "null" ∨ pyLower x = "undefined" := by
        simpa using hmark
      have key : ∀ m : String, pyLower x = m →
          pyLowerL x.toList = m.toList := by
        intro m hm
        have := congrArg String.toList hm
        rwa [show (pyLower x).toList = pyLowerL x.toList from rfl] at this
      rcases hcases with hm | hm | hm | hm <;> (rw [key _ hm]; decide)
    unfold validate_folder_path validateL
    rw [if_pos (by rw [hmem]; simp)]
    exact asString_toList _

/-- Witness for C5's universally quantified part. -/
theorem C5_sentinel_witness :
    validate_folder_path "NULL" = "Uncategorized" ∧
    validate_folder_path "   " = "Uncategorized" :=
  ⟨C5_sentinel.1 "NULL" (Or.inr (Or.inr (by decide))),
   C5_sentinel.1 "   " (Or.inr (Or.inl ⟨by decide, by decide⟩))⟩

/-- Counterexample to claim C6 as stated: neither parser returns
`src/components` for a response that is exactly a fenced block around it. -/
theorem C6_counterexample :
    extract_path_from_text fencedInput ≠ "src/components" ∧
    extract_path_from_response fencedInput ≠ "src/components" := by
  refine ⟨by decide, by decide⟩

/-- Claim C6, amended: the fence-removal step deletes the entire fenced
block (delimiters and content), so a response that is exactly a fenced
path yields the empty string from the organizer parser and the sentinel
from the backends parser. -/
theorem C6_fence_removed :
    extract_path_from_text fencedInput = "" ∧
    extract_path_from_response fencedInput = "Uncategorized" := by
  refine ⟨by decide, by decide⟩

/-- Claim C7 (confirmed): on the `snapCtx` snapshot the snapper
substitutes `Documents` for `Docments` (ratio 16/17 ≥ 0.8) and — because
the ancestor pointer advanced with the substituted name — `Reports` for
`Reprots` (ratio 12/14); it leaves `Finance` unchanged (no sibling clears
the cutoff) and leaves `Taxes` unchanged when the directory read fails
(fail-open). -/
theorem C7_snapper :
    get_close_matches1 "Docments" ["Documents", "Media"] = some "Documents" ∧
    get_close_matches1 "Finance" ["Archive", "Media"] = none ∧
    snap_to_existing_dirs snapCtx "Root/Docments/Reprots/Finance/Taxes"
      = "Root/Documents/Reports/Finance/Taxes" := by
  refine ⟨by decide, by decide, by decide⟩

/-- Counterexample to claim C8 as stated: in the organizer two-pass
protocol a refinement that sanitizes to a value differing only in case
from the first pass replaces it — the original casing is lost. -/
theorem C8_counterexample :
    sanitize_path "Root/Docs" = some "Root/Docs" ∧
    pyLower "Root/Docs" = pyLower "ROOT/DOCS" ∧
    process_file_two_pass baseCtx [("s1", ⟨some "ROOT/DOCS"⟩)] false true
      "notes.txt" "s1" "w" (fun _ => "Root/Docs")
      = some ("Root/Docs", "Cached → Refined") ∧
    ("Root/Docs" : String) ≠ "ROOT/DOCS" := by
  refine ⟨by decide, by decide, by rfl, by decide⟩

/-- Claim C8, amended: the case-insensitive no-churn guard exists only in
the enhanced variant's refinement helper — if the refined text extracts to
a value whose trimmed case-folded form equals the first-pass path's, that
helper returns the first-pass value exactly; the basic organizer instead
keeps any nonempty refined guardrailed path. -/
theorem C8_no_churn :
    (∀ (ecp : String → String) (firstPath text : String),
      pyLower (pyStrip (ecp text)) = pyLower (pyStrip firstPath) →
      refine_ai_path_enhanced ecp firstPath text = firstPath) ∧
    (∀ (ctx : GuardCtx) (fileName firstPath text r : String),
      apply_guardrails ctx fileName text = some r → r ≠ "" →
      refineStep ctx fileName firstPath text = some r) := by
  constructor
  · intro ecp firstPath text h
    simp only [refine_ai_path_enhanced]
    rw [if_pos h]
    split <;> rfl
  · intro ctx fileName firstPath text r h hne
    unfold refineStep
    rw [h, Option.map_some', if_neg hne]

/-- Witness for C8's amended theorem at concrete inputs. -/
theorem C8_no_churn_witness :
    refine_ai_path_enhanced (fun _ => "root/docs") "ROOT/DOCS" "x" = "ROOT/DOCS" ∧
    refineStep baseCtx "notes.txt" "ROOT/DOCS" "Root/Docs" = some "Root/Docs" :=
  ⟨C8_no_churn.1 (fun _ => "root/docs") "ROOT/DOCS" "x" (by decide),
   C8_no_churn.2 baseCtx "notes.txt" "ROOT/DOCS" "Root/Docs" "Root/Docs"
    (by decide) (by decide)⟩

/-- Claim C9 (confirmed): on a cache hit (signature present, cache not
ignored) the stored path is returned verbatim as the first pass and, with
refinement off, as the final result — regardless of the guardrail
settings, the file name, or the oracle text; no sanitization, pin, root
containment or snapping is re-applied. -/
theorem C9_cache_hit_verbatim (ctx : GuardCtx) (history : List (String × HistEntry))
    (fileName sig text1 : String) (t2 : String → String) (e : HistEntry)
    (h : history.lookup sig = some e) :
    process_file_two_pass ctx history false false fileName sig text1 t2
      = some (e.aiPath.getD "Uncategorized", "Cached") := by
  unfold process_file_two_pass firstPassOf
  rw [h]
  rfl

/-- Witness for C9: a path cached under different settings (`Elsewhere/x`,
not under the root) is surfaced unchanged even for a pinned Terraform
file with pinning and stay-under-root enabled. -/
theorem C9_cache_hit_verbatim_witness :
    process_file_two_pass baseCtx [("s1", ⟨some "Elsewhere/x"⟩)] false false
      "main.tf" "s1" "w" (fun _ => "t") = some ("Elsewhere/x", "Cached") :=
  C9_cache_hit_verbatim baseCtx [("s1", ⟨some "Elsewhere/x"⟩)]
    "main.tf" "s1" "w" (fun _ => "t") ⟨some "Elsewhere/x"⟩ (by decide)

/-- Claim C10 (confirmed): the signature is total — when `stat` raises,
the signature is the fixed fallback `name|0|0`, so any two unreadable
files with the same basename share one signature, and an unreadable
file's signature cannot change with its (unobservable) size or mtime. -/
theorem C10_signature_total :
    (∀ f : FsFile, f.stat = none → signature f = f.name ++ "|0|0") ∧
    (∀ f g : FsFile, f.stat = none → g.stat = none → f.name = g.name →
      signature f = signature g) := by
  constructor
  · intro f h
    unfold signature
    rw [h]
  · intro f g hf hg hn
    unfold signature
    rw [hf, hg, hn]

/-- Witness for C10 at two distinct unreadable files sharing a basename. -/
theorem C10_signature_total_witness :
    signature ⟨["a"], "f.txt", none⟩ = "f.txt" ++ "|0|0" ∧
    signature ⟨["a"], "f.txt", none⟩ = signature ⟨["b", "c"], "f.txt", none⟩ :=
  ⟨C10_signature_total.1 ⟨["a"], "f.txt", none⟩ rfl,
   C10_signature_total.2 ⟨["a"], "f.txt", none⟩ ⟨["b", "c"], "f.txt", none⟩ rfl rfl rfl⟩

end Organizer
